import Mathlib


/-!
# http2ss-proxy: the descriptor parser, the relay dialer, the proxy front end
and the relay copy task of `main.go`, embedded in Lean

Go strings are byte sequences, so a string is a `List Byte`.  The functions of
the Go standard library that `main.go` calls (`strings.HasPrefix`,
`strings.TrimPrefix`, `strings.Split`, `strings.Index`,
`base64.URLEncoding.DecodeString`, `io.Copy`, `http.Error`) are embedded after
their Go sources and keep their Go names, each in a namespace named after its
package.
-/

/-! # Part 1. The embedding of `main.go` -/

/-- One byte of a Go string. -/
abbrev Byte := Fin 256

/-- The bytes of an ASCII string literal. -/
def ascii (s : String) : List Byte :=
  s.toList.map (fun c => Fin.ofNat c.toNat)

/-! ## package strings -/

namespace strings

/-- Go `strings.HasPrefix(s, prefix)`: `len(s) >= len(prefix) && s[:len(prefix)] == prefix`. -/
def HasPrefix (s pre : List Byte) : Bool :=
  decide (pre.length ≤ s.length) && decide (s.take pre.length = pre)

/-- Go `strings.TrimPrefix(s, prefix)`: `s[len(prefix):]` when `s` has the
prefix, `s` itself otherwise. -/
def TrimPrefix (s pre : List Byte) : List Byte :=
  if HasPrefix s pre then s.drop pre.length else s

/-- Go `strings.Index(s, substr)`: the index of the first instance of `substr`
in `s`; Go's `-1` (no instance) is `none`. -/
def Index : List Byte → List Byte → Option Nat
  | [], substr => if substr = [] then some 0 else none
  | c :: s, substr =>
    if HasPrefix (c :: s) substr then some 0
    else (Index s substr).map (fun i => i + 1)

/-- The loop of Go `strings.genSplit(s, sep, 0, n)`: at most `n` times, cut `s`
at the first instance of `sep`, keep what precedes it and go on after it; the
rest of `s` is the last part. -/
def genSplitLoop : Nat → List Byte → List Byte → List (List Byte)
  | 0, s, _ => [s]
  | n + 1, s, sep =>
    match Index s sep with
    | none => [s]
    | some m => s.take m :: genSplitLoop n (s.drop (m + sep.length)) sep

/-- Go `strings.Split(s, sep)` for a non-empty `sep` (the only use in
`main.go` is with `"/?"`).  Go runs the loop `Count(s, sep)` times, a number
that `genSplit` itself caps by `len(s)`; the loop also stops at the first
`Index` that finds nothing, so running it `len(s)` times gives the same
parts. -/
def Split (s sep : List Byte) : List (List Byte) :=
  genSplitLoop s.length s sep

end strings

/-! ## package encoding/base64 -/

namespace base64

/-- Go `encodeURL`, the alphabet of `base64.URLEncoding`:
`A`..`Z`, `a`..`z`, `0`..`9`, `-`, `_`. -/
def encodeURL : List Byte :=
  [65, 66, 67, 68, 69, 70, 71, 72, 73, 74, 75, 76, 77, 78, 79, 80, 81, 82, 83, 84, 85, 86, 87, 88,
   89, 90, 97, 98, 99, 100, 101, 102, 103, 104, 105, 106, 107, 108, 109, 110, 111, 112, 113, 114,
   115, 116, 117, 118, 119, 120, 121, 122, 48, 49, 50, 51, 52, 53, 54, 55, 56, 57, 45, 95]

/-- Go `StdPadding`, the padding character `=` of `base64.URLEncoding`. -/
def padChar : Byte := 61

/-- Go `enc.decodeMap[in]` of `base64.URLEncoding`: the table is filled with
`0xff` and then `decodeMap[encoder[i]] = i` for the 64 places of the
alphabet. -/
def decodeMap (c : Byte) : Nat :=
  if encodeURL.indexOf c < 64 then encodeURL.indexOf c else 255

/-- The tail of Go `decodeQuantum`: the `dlen` six-bit values collected in
`dbuf` (the places not filled are zero) are put together,
`val = dbuf[0]<<18 | dbuf[1]<<12 | dbuf[2]<<6 | dbuf[3]`, and the first
`dlen - 1` of the bytes `val>>16`, `val>>8`, `val` are the output.  The values
are below 64, so the `|` of the shifted values is their sum. -/
def convert (dbuf : List Nat) : List Byte :=
  let val := dbuf.getD 0 0 * 262144 + dbuf.getD 1 0 * 4096 + dbuf.getD 2 0 * 64 + dbuf.getD 3 0
  ([Fin.ofNat (val / 65536), Fin.ofNat (val / 256), Fin.ofNat val] : List Byte).take
    (dbuf.length - 1)

/-- What one call of Go `decodeQuantum(dst, src, si)` gives: `rest` is
`src[nsi:]`, `nsi` the new index, `out` the `n` bytes written to `dst`, `err`
the offset of a `CorruptInputError`. -/
structure Quantum where
  rest : List Byte
  nsi : Nat
  out : List Byte
  err : Option Nat
deriving DecidableEq, Repr

/-- Go's `for si < len(src) && (src[si] == '\n' || src[si] == '\r') { si++ }`,
on `src[si:]`. -/
def skipNewlines : List Byte → Nat → List Byte × Nat
  | [], si => ([], si)
  | c :: rest, si =>
    if c = 10 ∨ c = 13 then skipNewlines rest (si + 1) else (c :: rest, si)

/-- The end of the padding case of Go `decodeQuantum`, after the padding has
been read: newlines are skipped, anything left is trailing garbage (the error
is set and the bytes collected so far are still written). -/
def afterPadding (rest : List Byte) (si : Nat) (dbuf : List Nat) : Quantum :=
  let p := skipNewlines rest si
  if p.1 ≠ [] then ⟨p.1, p.2, convert dbuf, some p.2⟩
  else ⟨p.1, p.2, convert dbuf, none⟩

/-- The loop `for j := 0; j < len(dbuf); j++` of Go `decodeQuantum` for
`base64.URLEncoding` (padded, not strict), on `src[si:]`; `dbuf` holds the `j`
values read so far. -/
def quantumLoop : List Byte → Nat → List Nat → Quantum
  | [], si, dbuf =>
    if dbuf.length = 4 then ⟨[], si, convert dbuf, none⟩
    else if dbuf.length = 0 then ⟨[], si, [], none⟩
    else ⟨[], si, [], some (si - dbuf.length)⟩
  | c :: rest, si, dbuf =>
    if dbuf.length = 4 then ⟨c :: rest, si, convert dbuf, none⟩
    else if decodeMap c ≠ 255 then quantumLoop rest (si + 1) (dbuf ++ [decodeMap c])
    else if c = 10 ∨ c = 13 then quantumLoop rest (si + 1) dbuf
    else if c ≠ padChar then ⟨rest, si + 1, [], some si⟩
    else if dbuf.length < 2 then ⟨rest, si + 1, [], some si⟩
    else if dbuf.length = 2 then
      let p := skipNewlines rest (si + 1)
      match p.1 with
      | [] => ⟨[], p.2, [], some p.2⟩
      | d :: rest2 =>
        if d ≠ padChar then ⟨d :: rest2, p.2, [], some (p.2 - 1)⟩
        else afterPadding rest2 (p.2 + 1) dbuf
    else afterPadding rest (si + 1) dbuf

/-- Go `enc.decodeQuantum(dst, src, si)` on `src[si:]`. -/
def decodeQuantum (src : List Byte) (si : Nat) : Quantum :=
  quantumLoop src si []

/-- The loop of Go `enc.Decode`: `decodeQuantum` is called until the input is
used up or it reports an error; `out` is `dst[:n]`.  Go's two fast loops, which
take 8 and 4 bytes of the alphabet at a time and fall back on `decodeQuantum`,
give what `decodeQuantum` gives on those bytes.  Each round on a non-empty
input uses up a byte, so `fuel` need not exceed the length of the input. -/
def decodeLoop : Nat → List Byte → Nat → List Byte → List Byte × Option Nat
  | 0, _, _, out => (out, none)
  | fuel + 1, src, si, out =>
    if src = [] then (out, none)
    else
      let q := decodeQuantum src si
      if q.err ≠ none then (out ++ q.out, q.err)
      else decodeLoop fuel q.rest q.nsi (out ++ q.out)

/-- Go `base64.URLEncoding.DecodeString(s)`: the decoded bytes `dbuf[:n]` and
the error, `some offset` for `CorruptInputError(offset)`. -/
def DecodeString (s : List Byte) : List Byte × Option Nat :=
  decodeLoop s.length s 0 []

end base64

/-! ## parseSSURL -/

deriving instance DecidableEq for Except

/-- The four errors of `parseSSURL`, one per `return` with `err` set. -/
inductive ParseError
  /-- `errors.New("URL должен начинаться с ss://")` -/
  | missingScheme
  /-- `errors.New("Некорректный формат URL")` -/
  | missingAt
  /-- `fmt.Errorf("Ошибка декодирования base64: %v", err)` with `err` the
  `CorruptInputError(offset)` of the decoder -/
  | base64 (offset : Nat)
  /-- `errors.New("Некорректный формат метода и пароля")` -/
  | missingColon
deriving DecidableEq, Repr

/-- The descriptor `parseSSURL` returns with a nil error. -/
structure Descriptor where
  method : List Byte
  password : List Byte
  serverAddr : List Byte
deriving DecidableEq, Repr

/-- The literal `"ss://"`. -/
def ssScheme : List Byte := [115, 115, 58, 47, 47]

/-- The literal `"/?"`. -/
def querySep : List Byte := [47, 63]

/-- The literal `"@"`. -/
def atSign : Byte := 64

/-- The literal `":"`. -/
def colon : Byte := 58

/-- Go `parseSSURL(ssURL)`.  On every `return` with an error the three named
results `method`, `password`, `serverAddr` are still the empty string, so the
result is the error alone. -/
def parseSSURL (ssURL : List Byte) : Except ParseError Descriptor :=
  if ¬ strings.HasPrefix ssURL ssScheme then .error .missingScheme
  else
    let ssURL := strings.TrimPrefix ssURL ssScheme
    let parts := strings.Split ssURL querySep
    let ssURL := parts.headD []
    match strings.Index ssURL [atSign] with
    | none => .error .missingAt
    | some atIndex =>
      let base64Part := ssURL.take atIndex
      let serverPart := ssURL.drop (atIndex + 1)
      match base64.DecodeString base64Part with
      | (_, some offset) => .error (.base64 offset)
      | (decoded, none) =>
        let methodPassword := decoded
        match strings.Index methodPassword [colon] with
        | none => .error .missingColon
        | some colonIndex =>
          .ok ⟨methodPassword.take colonIndex, methodPassword.drop (colonIndex + 1), serverPart⟩

/-! ## The first query separator -/

/-- Says that `body` is the text of `rest` before its first instance of `sep`,
and all of `rest` when it holds none. -/
def IsBeforeFirst (sep rest body : List Byte) : Prop :=
  (¬ sep <:+: rest ∧ body = rest) ∨
    ∃ tail, rest = body ++ sep ++ tail ∧ ∀ a b, rest = a ++ sep ++ b → body.length ≤ a.length

/-! ## The padded URL-safe encoding and the decoder on it -/

namespace base64

/-- Go `enc.encode[i&0x3F]` of `base64.URLEncoding`. -/
def encodeChar (i : Nat) : Byte := encodeURL.getD (i % 64) 0

/-- Go `base64.URLEncoding.EncodeToString`, the padded URL-safe base64 of
RFC 4648: three bytes `val = a<<16 | b<<8 | c` give the four characters
`encode[val>>18&0x3F]`, `encode[val>>12&0x3F]`, `encode[val>>6&0x3F]`,
`encode[val&0x3F]`; a last group of one or two bytes gives two or three
characters and is filled up to four with `=`. -/
def EncodeToString : List Byte → List Byte
  | a :: b :: c :: rest =>
    let val := a.val * 65536 + b.val * 256 + c.val
    encodeChar (val / 262144) :: encodeChar (val / 4096) :: encodeChar (val / 64) ::
      encodeChar val :: EncodeToString rest
  | [a, b] =>
    let val := a.val * 65536 + b.val * 256
    [encodeChar (val / 262144), encodeChar (val / 4096), encodeChar (val / 64), padChar]
  | [a] =>
    let val := a.val * 65536
    [encodeChar (val / 262144), encodeChar (val / 4096), padChar, padChar]
  | [] => []

/-- The text `s` with its trailing `=` characters removed. -/
def trimPadding (s : List Byte) : List Byte :=
  s.rdropWhile (fun c => decide (c = padChar))

end base64

/-! ## The texts the decoder accepts -/

namespace base64

/-- The text `s` without its `\r` and `\n`, which the decoder skips. -/
def stripNewlines (s : List Byte) : List Byte :=
  s.filter (fun c => !(decide (c = 10) || decide (c = 13)))

/-- Says that a text is padded URL-safe base64: groups of four characters of
the alphabet, of which the last may end in `=` or in `==`. -/
def paddedText : List Byte → Bool
  | [] => true
  | c0 :: c1 :: c2 :: c3 :: rest =>
    decide (c0 ∈ encodeURL) && decide (c1 ∈ encodeURL) &&
      ((decide (c2 ∈ encodeURL) && decide (c3 ∈ encodeURL) && paddedText rest) ||
        (decide (rest = []) && decide (c3 = padChar) &&
          (decide (c2 ∈ encodeURL) || decide (c2 = padChar))))
  | _ => false

/-- Says that a text is valid URL-safe base64 in the words of the
specification, "URL-safe alphabet, no padding required": either padded
URL-safe base64, or characters of the alphabet alone, as many as an encoding
without its padding has (not one more than a multiple of four). -/
def validURLSafe (s : List Byte) : Bool :=
  paddedText s || (s.all (fun c => decide (c ∈ encodeURL)) && decide (s.length % 4 ≠ 1))

/-- The text the decoder accepts, read one character at a time: `j` counts the
characters of the group at hand. -/
def acceptFrom : Nat → List Byte → Bool
  | j, [] => decide (j = 0)
  | j, c :: t =>
    if c ∈ encodeURL then acceptFrom ((j + 1) % 4) t
    else if c = padChar then
      (decide (j = 2) && decide (t = [padChar])) || (decide (j = 3) && decide (t = []))
    else false

end base64

/-! ## The outcomes of parseSSURL -/

/-- The two kinds of error the specification gives the parser. -/
inductive ErrorKind
  | FormatError
  | DecodeError
deriving DecidableEq, Repr

/-- The kind of each error of `parseSSURL`: the wrapped error of the base64
decoder is a `DecodeError`, the three errors about the shape of the URL are
`FormatError`s. -/
def ParseError.kind : ParseError → ErrorKind
  | .missingScheme => .FormatError
  | .missingAt => .FormatError
  | .base64 _ => .DecodeError
  | .missingColon => .FormatError

/-- Failure (1): the string does not start with `"ss://"`. -/
def SchemeMissing (s : List Byte) : Prop := ¬ ssScheme <+: s

/-- Failure (2): the text between the scheme and the first `"/?"` holds no `@`. -/
def AtMissing (s : List Byte) : Prop :=
  ∃ rest body, s = ssScheme ++ rest ∧ IsBeforeFirst querySep rest body ∧ atSign ∉ body

/-- Failure (3) as amended, the one the code has: the credentials, the text
before the first `@`, are not padded URL-safe base64 once their `\r` and `\n`,
which the decoder skips, are removed.  The padding is required. -/
def CredentialsNotPadded (s : List Byte) : Prop :=
  ∃ rest body cred server, s = ssScheme ++ rest ∧ IsBeforeFirst querySep rest body ∧
    body = cred ++ atSign :: server ∧ atSign ∉ cred ∧
    base64.paddedText (base64.stripNewlines cred) = false

/-- Failure (4): the credentials decode to a text that holds no `:`. -/
def ColonMissing (s : List Byte) : Prop :=
  ∃ rest body cred server decoded, s = ssScheme ++ rest ∧ IsBeforeFirst querySep rest body ∧
    body = cred ++ atSign :: server ∧ atSign ∉ cred ∧
    base64.DecodeString cred = (decoded, none) ∧ colon ∉ decoded

/-! ## package io: the copy loops -/

namespace io

/-- The non-nil error of a `Read`: `io.EOF` or another error. -/
inductive ReadErr
  | EOF
  | other (msg : String)
deriving DecidableEq, Repr

/-- What one `dst.Write(p)` returns: the count `nw` and the error `ew`. -/
structure WriteResult where
  nw : Nat
  ew : Option String
deriving DecidableEq, Repr

/-- The error a copy returns. -/
inductive CopyErr
  /-- the error `ew` of a `Write` -/
  | write (msg : String)
  /-- `errInvalidWrite`: a `Write` reported more bytes than it was given -/
  | invalidWrite
  /-- `io.ErrShortWrite`: a `Write` took fewer bytes and reported no error -/
  | shortWrite
  /-- the error `er` of a `Read`, other than `io.EOF` -/
  | read (msg : String)
deriving DecidableEq, Repr

/-- The calls a copy makes on its two ends, with what they return. -/
inductive Event
  /-- `src.Read(buf)` returned the bytes `data` and the error `er` -/
  | read (data : List Byte) (er : Option ReadErr)
  /-- `dst.Write(p)` returned `nw` and `ew` -/
  | write (p : List Byte) (res : WriteResult)
deriving DecidableEq, Repr

/-- What a copy leaves behind: the calls made, and its two results. -/
structure CopyResult where
  trace : List Event
  written : Nat
  err : Option CopyErr
deriving DecidableEq, Repr

/-- The `if nr > 0 { ... }` block of the loop of Go `io.copyBuffer`, for the
`k`-th `Write`: `nw, ew := dst.Write(buf[0:nr])`; a count above `nr` is an
invalid write (`nw = 0`, `ew = errInvalidWrite` unless `ew` is set); `ew` ends
the copy; so does `nr != nw`, with `ErrShortWrite`.  Gives the count added to
`written` and the error that ends the copy, if any. -/
def writeChunk (dst : Nat → List Byte → WriteResult) (k : Nat) (data : List Byte) :
    Nat × Option CopyErr :=
  let res := dst k data
  let nw := if data.length < res.nw then 0 else res.nw
  let ew : Option CopyErr :=
    if data.length < res.nw then
      match res.ew with
      | none => some .invalidWrite
      | some msg => some (.write msg)
    else res.ew.map .write
  match ew with
  | some e => (nw, some e)
  | none => if data.length ≠ nw then (nw, some .shortWrite) else (nw, none)

/-- The loop that Go `io.copyBuffer` and the `WriteTo` and `ReadFrom` of the
cipher connection share: `for { nr, er := src.Read(buf); if nr > 0 { write };
if er != nil { if er != EOF { err = er }; break } }`.  They differ in what
they do with the result of the write, `chunk`: the count it adds to the bytes
copied and the error with which it ends the copy, if any.  The source is given
by what its `Read`s return: `reads` are the reads that return a nil error, in
order, and `last` is the read that returns an error (`io.EOF` or another),
with the bytes it comes with.  The destination is given by what its `k`-th
`Write` returns on the bytes it is passed.  A read of no bytes makes no write.
On a source whose reads never return an error the copy does not end; such a
source has no `last`. -/
def copyLoop (chunk : Nat → List Byte → Nat × Option CopyErr)
    (dst : Nat → List Byte → WriteResult) :
    List (List Byte) → List Byte × ReadErr → Nat → Nat → CopyResult
  | [], (data, er), k, written =>
    let readErr : Option CopyErr :=
      match er with
      | .EOF => none
      | .other msg => some (.read msg)
    if data.length > 0 then
      match (chunk k data).2 with
      | some e =>
        ⟨[.read data (some er), .write data (dst k data)], written + (chunk k data).1, some e⟩
      | none =>
        ⟨[.read data (some er), .write data (dst k data)], written + (chunk k data).1, readErr⟩
    else ⟨[.read data (some er)], written, readErr⟩
  | data :: reads, last, k, written =>
    if data.length > 0 then
      match (chunk k data).2 with
      | some e => ⟨[.read data none, .write data (dst k data)], written + (chunk k data).1, some e⟩
      | none =>
        let r := copyLoop chunk dst reads last (k + 1) (written + (chunk k data).1)
        ⟨.read data none :: .write data (dst k data) :: r.trace, r.written, r.err⟩
    else
      let r := copyLoop chunk dst reads last k written
      ⟨.read data none :: r.trace, r.written, r.err⟩

/-- The loop of Go `io.copyBuffer`: the copy ends at a write that returns an
error or a count other than the bytes it was given. -/
def copyBuffer (dst : Nat → List Byte → WriteResult) (reads : List (List Byte))
    (last : List Byte × ReadErr) (k written : Nat) : CopyResult :=
  copyLoop (writeChunk dst) dst reads last k written

end io

/-! ## The cipher connection of go-shadowsocks2 -/

namespace cipher

/-- The write of `(*reader).WriteTo(w)` of the library (packages `shadowaead`
and `shadowstream`): `nw, ew := w.Write(buf[:nr]); n += int64(nw);
if ew != nil { err = ew; break }`.  A short count does not end the copy. -/
def writeToChunk (dst : Nat → List Byte → io.WriteResult) (k : Nat) (data : List Byte) :
    Nat × Option io.CopyErr :=
  ((dst k data).nw, (dst k data).ew.map .write)

/-- The write of `(*writer).ReadFrom(r)` of the library: `n += int64(nr)`, the
bytes are encrypted, `_, ew := w.Writer.Write(buf); if ew != nil { err = ew;
break }`.  The count of the write is dropped. -/
def readFromChunk (dst : Nat → List Byte → io.WriteResult) (k : Nat) (data : List Byte) :
    Nat × Option io.CopyErr :=
  (data.length, (dst k data).ew.map .write)

/-- The `WriteTo(w)` of the cipher connection, when nothing was read from it
before: it reads and decrypts from the connection and writes to `w`. -/
def WriteTo (dst : Nat → List Byte → io.WriteResult) (reads : List (List Byte))
    (last : List Byte × io.ReadErr) (k written : Nat) : io.CopyResult :=
  io.copyLoop (writeToChunk dst) dst reads last k written

/-- The `ReadFrom(r)` of the cipher connection: it reads from `r`, encrypts and
writes to the connection; `dst` is what the writes on the connection return. -/
def ReadFrom (dst : Nat → List Byte → io.WriteResult) (reads : List (List Byte))
    (last : List Byte × io.ReadErr) (k written : Nat) : io.CopyResult :=
  io.copyLoop (readFromChunk dst) dst reads last k written

end cipher

namespace io

/-- Go `io.Copy(dst, src)`: `if wt, ok := src.(WriterTo); ok { return
wt.WriteTo(dst) }`, `if rf, ok := dst.(ReaderFrom); ok { return
rf.ReadFrom(src) }`, and otherwise the loop of `copyBuffer`.  `srcWriterTo` and
`dstReaderFrom` say whether the two ends have the methods; the ends that have
them are cipher connections (a `*net.TCPConn` hands a copy with a cipher
connection back to `io.Copy`, and the response writer of the server runs the
loop of `copyBuffer`). -/
def Copy (srcWriterTo dstReaderFrom : Bool) (dst : Nat → List Byte → WriteResult)
    (reads : List (List Byte)) (last : List Byte × ReadErr) : CopyResult :=
  if srcWriterTo then cipher.WriteTo dst reads last 0 0
  else if dstReaderFrom then cipher.ReadFrom dst reads last 0 0
  else copyBuffer dst reads last 0 0

/-- The bytes the reads of a trace returned, in order. -/
def bytesRead : List Event → List Byte
  | [] => []
  | .read data _ :: tr => data ++ bytesRead tr
  | .write _ _ :: tr => bytesRead tr

/-- The bytes a trace passed to `Write`, in order. -/
def bytesWritten : List Event → List Byte
  | [] => []
  | .read _ _ :: tr => bytesWritten tr
  | .write p _ :: tr => p ++ bytesWritten tr

/-- The reads of a source, as the events of a copy that reads them all. -/
def script (reads : List (List Byte)) (last : List Byte × ReadErr) : List Event :=
  reads.map (fun data => Event.read data none) ++ [Event.read last.1 (some last.2)]

/-- The reads of a trace, in order. -/
def readEvents : List Event → List Event
  | [] => []
  | .read data er :: tr => .read data er :: readEvents tr
  | .write _ _ :: tr => readEvents tr

/-- Says that a trace is made of reads, each read that returned bytes followed
at once by the write of exactly those bytes, and of nothing else. -/
def paired : List Event → Bool
  | [] => true
  | .write _ _ :: _ => false
  | .read data _ :: tr =>
    if data = [] then paired tr
    else
      match tr with
      | .write p _ :: tr2 => decide (p = data) && paired tr2
      | _ => false

/-- Says that the result of a `Write` ends the copy: an error, and in the loop
of `copyBuffer` (`generic`) also a count other than the bytes given. -/
def endsCopy (generic : Bool) (p : List Byte) (res : WriteResult) : Bool :=
  res.ew.isSome || (generic && decide (res.nw ≠ p.length))

/-- Says that no write of a trace but its last event ends the copy. -/
def noEarlyEnd (generic : Bool) : List Event → Bool
  | [] => true
  | [_] => true
  | .write p res :: e :: tr => !endsCopy generic p res && noEarlyEnd generic (e :: tr)
  | .read _ _ :: e :: tr => noEarlyEnd generic (e :: tr)

/-- Says that the last event of a trace is a write that ends the copy. -/
def endedByWrite (generic : Bool) (tr : List Event) : Bool :=
  match tr.getLast? with
  | some (.write p res) => endsCopy generic p res
  | _ => false

/-- Says that the writes of a trace, counted from `k`, carry what the
destination returns on them. -/
def resultsOf (dst : Nat → List Byte → WriteResult) : Nat → List Event → Bool
  | _, [] => true
  | k, .read _ _ :: tr => resultsOf dst k tr
  | k, .write p res :: tr => decide (res = dst k p) && resultsOf dst (k + 1) tr

end io

/-! ## transfer -/

/-- The calls of `transfer(destination, source)` on its two ends. -/
inductive TransferEvent
  /-- a call `io.Copy` made -/
  | copy (e : io.Event)
  /-- `source.Close()` -/
  | closeSource
  /-- `destination.Close()` -/
  | closeDestination
deriving DecidableEq, Repr

/-- Go `transfer(destination, source)`: `io.Copy(destination, source)`, its
two results dropped, then the deferred calls in reverse order,
`source.Close()` and `destination.Close()`.  The function has no result: the
value is the trace of its calls. -/
def transfer (srcWriterTo dstReaderFrom : Bool)
    (destination : Nat → List Byte → io.WriteResult) (reads : List (List Byte))
    (last : List Byte × io.ReadErr) : List TransferEvent :=
  let r := io.Copy srcWriterTo dstReaderFrom destination reads last
  r.trace.map .copy ++ [.closeSource, .closeDestination]

/-! ## newShadowsocksDialer -/

/-- The three errors of the dial function `newShadowsocksDialer` returns. -/
inductive DialError
  /-- `"Ошибка подключения к серверу Shadowsocks: %v"`, from `net.Dial` -/
  | connect (msg : String)
  /-- `"Ошибка парсинга адреса назначения: %v"`, `socks.ParseAddr` gave nil -/
  | parseAddr (addr : List Byte)
  /-- `"Ошибка отправки адреса назначения: %v"`, from `conn.Write` -/
  | sendAddr (msg : String)
deriving DecidableEq, Repr

/-- The state of the connection to the relay: what was passed to its `Write`,
in order, and whether `Close` was called. -/
structure RelayConn where
  written : List (List Byte)
  closed : Bool
deriving DecidableEq, Repr

/-- What the calls of the dial function return: the error of
`net.Dial("tcp", serverAddr)`, the address encoder `socks.ParseAddr` of the
library (`none` is its nil), and the error of `conn.Write` on the encrypted
connection. -/
structure DialEnv where
  netDial : Option String
  ParseAddr : List Byte → Option (List Byte)
  connWrite : List Byte → Option String

/-- What one call of the dial function gives: whether the first result is the
connection (`false` is nil), the error, and the connection to the relay as the
call leaves it (`none` when `net.Dial` opened none). -/
structure DialResult where
  returned : Bool
  err : Option DialError
  relay : Option RelayConn
deriving DecidableEq, Repr

/-- The function literal that `newShadowsocksDialer` returns and `main` names
`shadowsocksDialer`.  `cipher.StreamConn` wraps the connection and makes no
call on it. -/
def shadowsocksDialer (env : DialEnv) (addr : List Byte) : DialResult :=
  match env.netDial with
  | some msg => ⟨false, some (.connect msg), none⟩
  | none =>
    let conn : RelayConn := ⟨[], false⟩
    match env.ParseAddr addr with
    | none =>
      let conn := { conn with closed := true }
      ⟨false, some (.parseAddr addr), some conn⟩
    | some targetAddr =>
      let conn := { conn with written := conn.written ++ [targetAddr] }
      match env.connWrite targetAddr with
      | some msg =>
        let conn := { conn with closed := true }
        ⟨false, some (.sendAddr msg), some conn⟩
      | none => ⟨true, none, some conn⟩

/-- Go `newShadowsocksDialer(method, password, serverAddr)`: the error of
`core.PickCipher` (`pickCipher`) is returned wrapped, with no dial function;
otherwise the dial function. -/
def newShadowsocksDialer (pickCipher : Option String) :
    Except String (DialEnv → List Byte → DialResult) :=
  match pickCipher with
  | some msg => .error msg
  | none => .ok shadowsocksDialer

/-! ## handleConnect -/

/-- The two connections of a tunnel. -/
inductive Endpoint
  | clientConn
  | targetConn
deriving DecidableEq, Repr

/-- The calls of `handleConnect`, in the order it makes them. -/
inductive ConnectEvent
  /-- `http.Error(w, msg, code)` -/
  | httpError (msg : List Byte) (code : Nat)
  /-- `hijacker.Hijack()` -/
  | hijack
  /-- `clientConn.Write(p)` -/
  | clientWrite (p : List Byte)
  /-- `clientConn.Close()` -/
  | clientClose
  /-- `dialer(r.Context(), network, addr)` -/
  | dial (network : String) (addr : List Byte)
  /-- `go transfer(destination, source)` -/
  | goTransfer (destination source : Endpoint)
deriving DecidableEq, Repr

/-- What the calls of `handleConnect` on the client side return: whether `w`
is an `http.Hijacker`, the error of `Hijack()`, the error of
`clientConn.Write`. -/
structure ConnectEnv where
  hijacker : Bool
  hijackErr : Option (List Byte)
  clientWriteErr : Option String

/-- The literal `"HTTP/1.1 200 Connection Established\r\n\r\n"`. -/
def connectionEstablished : List Byte :=
  ascii "HTTP/1.1 200 Connection Established\r\n\r\n"

/-- Go `handleConnect(w, r, dialer)`, as the trace of its calls; `host` is
`r.Host`, and `dialer network addr` is the error `dialer` returns (`none` for
nil, when it returns the target connection). -/
def handleConnect (env : ConnectEnv) (host : List Byte)
    (dialer : String → List Byte → Option String) : List ConnectEvent :=
  if ¬ env.hijacker then [.httpError (ascii "Hijacking not supported") 500]
  else
    match env.hijackErr with
    | some msg => [.hijack, .httpError msg 503]
    | none =>
      match env.clientWriteErr with
      | some _ => [.hijack, .clientWrite connectionEstablished, .clientClose]
      | none =>
        match dialer "tcp" host with
        | some _ =>
          [.hijack, .clientWrite connectionEstablished, .dial "tcp" host, .clientClose]
        | none =>
          [.hijack, .clientWrite connectionEstablished, .dial "tcp" host,
            .goTransfer .clientConn .targetConn, .goTransfer .targetConn .clientConn]

/-! ## package net/http -/

namespace http

/-- Go `http.Header`, a `map[string][]string`, as the list of its entries. -/
abbrev Header := List (String × List String)

/-- The map assignment `h[k] = v`. -/
def Header.assign (h : Header) (k : String) (v : List String) : Header :=
  (k, v) :: h.filter (fun e => decide (e.1 ≠ k))

/-- The map read `h[k]`. -/
def Header.get (h : Header) (k : String) : Option (List String) :=
  h.lookup k

/-- Go `h.Set(key, value)`, for a key in canonical form. -/
def Header.Set (h : Header) (key value : String) : Header :=
  h.assign key [value]

/-- Go `h.Del(key)`, for a key in canonical form. -/
def Header.Del (h : Header) (key : String) : Header :=
  h.filter (fun e => decide (e.1 ≠ key))

/-- What a handler has done on its `http.ResponseWriter`: the header map, the
informational responses sent (each with its status code and the header map at
that time), the status code of the response, the bytes passed to `Write`. -/
structure ResponseWriter where
  header : Header
  interim : List (Nat × Header)
  status : Option Nat
  body : List Byte
deriving DecidableEq, Repr

/-- The `ResponseWriter` the server hands to a handler. -/
def ResponseWriter.fresh : ResponseWriter := ⟨[], [], none, []⟩

/-- Go `w.WriteHeader(code)` of the response writer of the server; `none` is
its panic.  A call after the status is set does nothing; else
`checkWriteHeaderCode` panics on a code below 100 or above 999; a code from
100 to 199 other than 101 is sent at once as an informational response and
sets no status; any other code is the status of the response. -/
def ResponseWriter.WriteHeader (w : ResponseWriter) (code : Nat) : Option ResponseWriter :=
  match w.status with
  | some _ => some w
  | none =>
    if code < 100 ∨ code > 999 then none
    else if 100 ≤ code ∧ code ≤ 199 ∧ code ≠ 101 then
      some { w with interim := w.interim ++ [(code, w.header)] }
    else some { w with status := some code }

/-- Go `w.Write(p)`: `if !w.wroteHeader { w.WriteHeader(StatusOK) }`, then the
bytes go out. -/
def ResponseWriter.Write (w : ResponseWriter) (p : List Byte) : ResponseWriter :=
  match w.status with
  | some _ => { w with body := w.body ++ p }
  | none => { w with status := some 200, body := w.body ++ p }

/-- The writes of a copy to the response writer, one `w.Write(p)` for each
`Write` of the trace. -/
def ResponseWriter.writeAll (w : ResponseWriter) : List io.Event → ResponseWriter
  | [] => w
  | .read _ _ :: tr => w.writeAll tr
  | .write p _ :: tr => (w.Write p).writeAll tr

/-- Go `http.Error(w, error, code)`: the `Content-Length` header is deleted,
`Content-Type` and `X-Content-Type-Options` are set, the status is written and
the text goes out as one line (`fmt.Fprintln`).  The second component says
whether `WriteHeader` panicked. -/
def Error (w : ResponseWriter) (error : List Byte) (code : Nat) : ResponseWriter × Bool :=
  let h := w.header.Del "Content-Length"
  let h := h.Set "Content-Type" "text/plain; charset=utf-8"
  let h := h.Set "X-Content-Type-Options" "nosniff"
  let w := { w with header := h }
  match w.WriteHeader code with
  | none => (w, true)
  | some w => (w.Write (error ++ [10]), false)

/-- The fields of Go `http.Response` that `handleHTTP` reads; the body is
given by what its `Read`s return, as for `io.Copy`. -/
structure Response where
  StatusCode : Nat
  Header : Header
  bodyReads : List (List Byte)
  bodyLast : List Byte × io.ReadErr

/-- The transport of `main`, `&http.Transport{DialContext: shadowsocksDialer}`,
for one request: the error of the dial function when the transport opens its
connection through it, and what the exchange on the connection gives. -/
structure Transport where
  DialContext : Option (List Byte)
  exchange : Except (List Byte) Response

/-- Go `transport.RoundTrip(req)`: the error of the dial is the error of the
round trip. -/
def Transport.RoundTrip (t : Transport) : Except (List Byte) Response :=
  match t.DialContext with
  | some msg => .error msg
  | none => t.exchange

end http

/-- All the bytes of a sequence of reads. -/
def concatReads : List (List Byte) → List Byte
  | [] => []
  | data :: reads => data ++ concatReads reads

/-- All the bytes the reads of the body of an upstream response return. -/
def http.Response.body (resp : http.Response) : List Byte :=
  concatReads resp.bodyReads ++ resp.bodyLast.1

/-! ## handleHTTP -/

/-- What the calls of `handleHTTP` return: the error of `http.NewRequest`, the
transport, and what the `k`-th `w.Write` of the copy returns. -/
structure HTTPEnv where
  newRequestErr : Option (List Byte)
  transport : http.Transport
  clientWrite : Nat → List Byte → io.WriteResult

/-- What `handleHTTP` leaves behind: the response writer, whether the deferred
`resp.Body.Close()` has run, and whether the handler panicked. -/
structure HTTPOutcome where
  w : http.ResponseWriter
  bodyClosed : Bool
  panicked : Bool
deriving DecidableEq, Repr

/-- Go `handleHTTP(w, r, transport)`.  A panic of `w.WriteHeader` ends the
handler: the deferred `resp.Body.Close()` runs and nothing is copied.  In
`io.Copy(w, resp.Body)` the body of a response of the transport has no
`WriteTo`, and the `ReadFrom` of the response writer of the server copies with
`io.CopyBuffer`, the loop of `copyBuffer`. -/
def handleHTTP (w : http.ResponseWriter) (env : HTTPEnv) : HTTPOutcome :=
  match env.newRequestErr with
  | some msg => ⟨(http.Error w msg 500).1, false, (http.Error w msg 500).2⟩
  | none =>
    match env.transport.RoundTrip with
    | .error msg => ⟨(http.Error w msg 503).1, false, (http.Error w msg 503).2⟩
    | .ok resp =>
      let h := resp.Header.foldl
        (fun (h : http.Header) (kv : String × List String) => h.assign kv.1 kv.2) w.header
      let w := { w with header := h }
      match w.WriteHeader resp.StatusCode with
      | none => ⟨w, true, true⟩
      | some w =>
        let r := io.Copy false false env.clientWrite resp.bodyReads resp.bodyLast
        ⟨w.writeAll r.trace, true, false⟩

/-! # Part 2. Theorems -/

/-! ## Facts about package strings -/

namespace strings

theorem HasPrefix_iff (s pre : List Byte) : HasPrefix s pre = true ↔ pre <+: s := by
  unfold HasPrefix
  simp only [Bool.and_eq_true, decide_eq_true_eq]
  constructor
  · rintro ⟨_, h⟩
    have h2 := List.take_append_drop pre.length s
    rw [h] at h2
    exact ⟨_, h2⟩
  · rintro ⟨t, rfl⟩
    simp

theorem TrimPrefix_append (pre x : List Byte) : TrimPrefix (pre ++ x) pre = x := by
  have h : HasPrefix (pre ++ x) pre = true := (HasPrefix_iff _ _).2 ⟨x, rfl⟩
  simp [TrimPrefix, h]

theorem Index_eq_none_iff (s sub : List Byte) : Index s sub = none ↔ ¬ sub <:+: s := by
  induction s with
  | nil =>
    simp only [Index, List.infix_nil]
    by_cases h : sub = [] <;> simp [h]
  | cons c s ih =>
    simp only [Index]
    by_cases h : HasPrefix (c :: s) sub = true
    · simp only [h, if_true]
      have := (HasPrefix_iff _ _).1 h
      simp [this.isInfix]
    · have h2 : ¬ sub <+: c :: s := fun hh => h ((HasPrefix_iff _ _).2 hh)
      rw [if_neg h, List.infix_cons_iff, Option.map_eq_none', ih]
      simp [h2]

/-- What `Index` finds is an instance of `substr` and no instance starts before it. -/
theorem Index_eq_some (s sub : List Byte) (m : Nat) (h : Index s sub = some m) :
    s = s.take m ++ sub ++ s.drop (m + sub.length) ∧
      ∀ a b, s = a ++ sub ++ b → m ≤ a.length := by
  induction s generalizing m with
  | nil =>
    simp only [Index] at h
    split at h
    · rename_i hs
      cases h
      subst hs
      simp
    · cases h
  | cons c s ih =>
    simp only [Index] at h
    by_cases hp : HasPrefix (c :: s) sub = true
    · simp only [hp, if_true, Option.some.injEq] at h
      subst h
      obtain ⟨t, ht⟩ := (HasPrefix_iff _ _).1 hp
      refine ⟨?_, fun _ _ _ => Nat.zero_le _⟩
      rw [← ht]
      simp
    · rw [if_neg hp, Option.map_eq_some'] at h
      obtain ⟨k, hk, rfl⟩ := h
      obtain ⟨h1, h2⟩ := ih k hk
      refine ⟨?_, ?_⟩
      · simp only [List.take_succ_cons, List.cons_append, List.cons.injEq, true_and]
        rw [show k + 1 + sub.length = (k + sub.length) + 1 by omega, List.drop_succ_cons]
        exact h1
      · intro a b hab
        cases a with
        | nil =>
          exfalso
          apply hp
          exact (HasPrefix_iff _ _).2 ⟨b, by simpa using hab.symm⟩
        | cons a0 a =>
          simp only [List.cons_append, List.cons.injEq] at hab
          have := h2 a b (by simpa using hab.2)
          simp only [List.length_cons]
          omega

theorem singleton_infix_iff (c : Byte) (s : List Byte) : [c] <:+: s ↔ c ∈ s := by
  constructor
  · rintro ⟨a, b, rfl⟩
    simp
  · intro h
    obtain ⟨a, b, rfl⟩ := List.append_of_mem h
    exact ⟨a, b, by simp⟩

theorem Index_singleton_eq_none_iff (s : List Byte) (c : Byte) :
    Index s [c] = none ↔ c ∉ s := by
  rw [Index_eq_none_iff, singleton_infix_iff]

/-- An instance of `sub` before which no instance starts is the one `Index` finds. -/
theorem Index_of_first (a sub b : List Byte)
    (hmin : ∀ a2 b2, a ++ sub ++ b = a2 ++ sub ++ b2 → a.length ≤ a2.length) :
    Index (a ++ sub ++ b) sub = some a.length := by
  cases h : Index (a ++ sub ++ b) sub with
  | none =>
    exact absurd ⟨a, b, rfl⟩ ((Index_eq_none_iff _ _).1 h)
  | some m =>
    obtain ⟨h1, h2⟩ := Index_eq_some _ _ _ h
    have hle := h2 a b rfl
    have hge := hmin _ _ h1
    have hlen : ((a ++ sub ++ b).take m).length = m := by
      rw [List.length_take]
      simp only [List.length_append]
      omega
    rw [hlen] at hge
    congr 1
    omega

theorem Index_append_singleton (a b : List Byte) (c : Byte) (h : c ∉ a) :
    Index (a ++ c :: b) [c] = some a.length := by
  have := Index_of_first a [c] b (by
    intro a2 b2 h2
    by_contra hlt
    apply h
    simp only [List.append_assoc, List.singleton_append] at h2
    obtain ⟨t, rfl, ht⟩ | ⟨t, rfl, ht⟩ := List.append_eq_append_iff.1 h2
    · simp at hlt
    · cases t with
      | nil => simp at hlt
      | cons x t =>
        simp only [List.cons_append, List.cons.injEq] at ht
        simp [ht.1])
  simpa using this

/-- What `Index` finds for a one-byte `substr`: the first place of that byte. -/
theorem Index_singleton_eq_some (s : List Byte) (c : Byte) (m : Nat)
    (h : Index s [c] = some m) :
    s = s.take m ++ c :: s.drop (m + 1) ∧ c ∉ s.take m ∧ (s.take m).length = m := by
  obtain ⟨h1, h2⟩ := Index_eq_some _ _ _ h
  simp only [List.append_assoc, List.singleton_append, List.length_singleton] at h1 h2
  have hlen : m < s.length := by
    have := congrArg List.length h1
    simp only [List.length_append, List.length_cons, List.length_take, List.length_drop] at this
    omega
  have hl : (s.take m).length = m := by
    rw [List.length_take]; omega
  refine ⟨h1, ?_, hl⟩
  intro hc
  obtain ⟨a, b, hab⟩ := List.append_of_mem hc
  have := h2 a (b ++ s.drop m) (by
    conv_lhs => rw [← List.take_append_drop m s, hab]
    simp)
  have hl2 := congrArg List.length hab
  simp only [List.length_append, List.length_cons] at hl2
  omega

theorem Split_head (s sep : List Byte) :
    (Split s sep).headD [] =
      match Index s sep with
      | none => s
      | some m => s.take m := by
  unfold Split
  cases hs : s.length with
  | zero =>
    have : s = [] := List.length_eq_zero.1 hs
    subst this
    simp only [genSplitLoop, List.headD_cons]
    split <;> simp
  | succ n =>
    simp only [genSplitLoop]
    split <;> simp

end strings

theorem IsBeforeFirst.unique {sep rest b1 b2 : List Byte}
    (h1 : IsBeforeFirst sep rest b1) (h2 : IsBeforeFirst sep rest b2) : b1 = b2 := by
  rcases h1 with ⟨n1, e1⟩ | ⟨t1, e1, m1⟩ <;> rcases h2 with ⟨n2, e2⟩ | ⟨t2, e2, m2⟩
  · rw [e1, e2]
  · exact absurd ⟨b2, t2, e2.symm⟩ n1
  · exact absurd ⟨b1, t1, e1.symm⟩ n2
  · have h12 := m1 _ _ e2
    have h21 := m2 _ _ e1
    have hlen : b1.length = b2.length := by omega
    have := e1.symm.trans e2
    simp only [List.append_assoc] at this
    exact (List.append_inj this hlen).1

theorem Split_head_isBeforeFirst (rest sep : List Byte) :
    IsBeforeFirst sep rest ((strings.Split rest sep).headD []) := by
  rw [strings.Split_head]
  cases h : strings.Index rest sep with
  | none => exact Or.inl ⟨(strings.Index_eq_none_iff _ _).1 h, rfl⟩
  | some m =>
    obtain ⟨h1, h2⟩ := strings.Index_eq_some _ _ _ h
    refine Or.inr ⟨rest.drop (m + sep.length), h1, fun a b hab => ?_⟩
    have := h2 a b hab
    simp only [List.length_take]
    omega

theorem querySep_first (a b : List Byte) (h : ¬ querySep <:+: a) :
    ∀ a2 b2, a ++ querySep ++ b = a2 ++ querySep ++ b2 → a.length ≤ a2.length := by
  intro a2 b2 h2
  by_contra hlt
  apply h
  simp only [List.append_assoc] at h2
  obtain ⟨t, rfl, ht⟩ | ⟨t, rfl, ht⟩ := List.append_eq_append_iff.1 h2
  · simp at hlt
  · match t, ht with
    | [], _ => simp at hlt
    | [x], ht =>
      simp only [querySep, List.cons_append, List.nil_append, List.cons.injEq] at ht
      exact absurd ht.2.1 (by decide)
    | x :: y :: t, ht =>
      simp only [querySep, List.cons_append, List.nil_append, List.cons.injEq] at ht
      exact ⟨a2, t, by simp [querySep, ht.1, ht.2.1]⟩

/-- When `a` holds no `"/?"`, the first part of `a ++ "/?" ++ b` is `a`. -/
theorem Split_head_append_querySep (a b : List Byte) (h : ¬ querySep <:+: a) :
    (strings.Split (a ++ querySep ++ b) querySep).headD [] = a := by
  rw [strings.Split_head, strings.Index_of_first a querySep b (querySep_first a b h)]
  simp

theorem Split_head_of_no_querySep (a : List Byte) (h : ¬ querySep <:+: a) :
    (strings.Split a querySep).headD [] = a := by
  rw [strings.Split_head, (strings.Index_eq_none_iff _ _).2 h]

namespace base64

theorem decodeMap_encodeURL : ∀ k : Fin 64, decodeMap (encodeURL.getD k.val 0) = k.val := by
  decide

theorem decodeMap_encodeChar (i : Nat) : decodeMap (encodeChar i) = i % 64 :=
  decodeMap_encodeURL ⟨i % 64, Nat.mod_lt _ (by decide)⟩

theorem encodeURL_plain : ∀ k : Fin 64,
    encodeURL.getD k.val 0 ≠ 64 ∧ encodeURL.getD k.val 0 ≠ 47 ∧ encodeURL.getD k.val 0 ≠ 63 ∧
      encodeURL.getD k.val 0 ≠ 61 := by
  decide

theorem encodeChar_plain (i : Nat) :
    encodeChar i ≠ atSign ∧ encodeChar i ≠ 47 ∧ encodeChar i ≠ 63 ∧ encodeChar i ≠ padChar :=
  encodeURL_plain ⟨i % 64, Nat.mod_lt _ (by decide)⟩

theorem quantumLoop_full (rest : List Byte) (si : Nat) (dbuf : List Nat)
    (h : dbuf.length = 4) : quantumLoop rest si dbuf = ⟨rest, si, convert dbuf, none⟩ := by
  cases rest <;> simp [quantumLoop, h]

theorem quantumLoop_encodeChar (i : Nat) (rest : List Byte) (si : Nat) (dbuf : List Nat)
    (h : dbuf.length < 4) :
    quantumLoop (encodeChar i :: rest) si dbuf = quantumLoop rest (si + 1) (dbuf ++ [i % 64]) := by
  have h1 : dbuf.length ≠ 4 := by omega
  have h2 : i % 64 ≠ 255 := by omega
  simp [quantumLoop, h1, decodeMap_encodeChar, h2]

theorem ofNat_eq (x : Nat) (a : Byte) (h : x % 256 = a.val) : (Fin.ofNat x : Byte) = a := by
  apply Fin.ext
  simpa [Fin.ofNat] using h

theorem convert_three (a b c : Byte) :
    convert [(a.val * 65536 + b.val * 256 + c.val) / 262144 % 64,
      (a.val * 65536 + b.val * 256 + c.val) / 4096 % 64,
      (a.val * 65536 + b.val * 256 + c.val) / 64 % 64,
      (a.val * 65536 + b.val * 256 + c.val) % 64] = [a, b, c] := by
  have ha := a.isLt
  have hb := b.isLt
  have hc := c.isLt
  simp only [convert, List.getD_cons_zero, List.getD_cons_succ, List.length_cons, List.length_nil]
  simp only [Nat.reduceAdd, Nat.add_one_sub_one, List.take_succ_cons, List.take_zero,
    List.cons.injEq, and_true]
  refine ⟨ofNat_eq _ _ ?_, ofNat_eq _ _ ?_, ofNat_eq _ _ ?_⟩ <;> omega

theorem convert_two (a b : Byte) :
    convert [(a.val * 65536 + b.val * 256) / 262144 % 64,
      (a.val * 65536 + b.val * 256) / 4096 % 64,
      (a.val * 65536 + b.val * 256) / 64 % 64] = [a, b] := by
  have ha := a.isLt
  have hb := b.isLt
  simp only [convert, List.getD_cons_zero, List.getD_cons_succ, List.length_cons, List.length_nil]
  simp only [Nat.reduceAdd, Nat.add_one_sub_one, List.take_succ_cons, List.take_zero,
    List.cons.injEq, and_true]
  refine ⟨ofNat_eq _ _ ?_, ofNat_eq _ _ ?_⟩ <;> simp <;> omega

theorem convert_one (a : Byte) :
    convert [(a.val * 65536) / 262144 % 64, (a.val * 65536) / 4096 % 64] = [a] := by
  have ha := a.isLt
  simp only [convert, List.getD_cons_zero, List.getD_cons_succ, List.length_cons, List.length_nil]
  simp only [Nat.reduceAdd, Nat.add_one_sub_one, List.take_succ_cons, List.take_zero,
    List.cons.injEq, and_true]
  refine ofNat_eq _ _ ?_
  simp
  omega

theorem decodeQuantum_three (a b c : Byte) (rest : List Byte) (si : Nat) :
    decodeQuantum (encodeChar ((a.val * 65536 + b.val * 256 + c.val) / 262144) ::
      encodeChar ((a.val * 65536 + b.val * 256 + c.val) / 4096) ::
      encodeChar ((a.val * 65536 + b.val * 256 + c.val) / 64) ::
      encodeChar (a.val * 65536 + b.val * 256 + c.val) :: rest) si =
      ⟨rest, si + 4, [a, b, c], none⟩ := by
  unfold decodeQuantum
  rw [quantumLoop_encodeChar _ _ _ _ (by simp), quantumLoop_encodeChar _ _ _ _ (by simp),
    quantumLoop_encodeChar _ _ _ _ (by simp), quantumLoop_encodeChar _ _ _ _ (by simp),
    quantumLoop_full _ _ _ (by simp)]
  simp only [List.nil_append, List.cons_append, convert_three]

theorem decodeLoop_nil (fuel si : Nat) (out : List Byte) :
    decodeLoop fuel [] si out = (out, none) := by
  cases fuel <;> simp [decodeLoop]

theorem decodeLoop_three (fuel : Nat) (a b c : Byte) (rest : List Byte) (si : Nat)
    (out : List Byte) :
    decodeLoop (fuel + 1) (encodeChar ((a.val * 65536 + b.val * 256 + c.val) / 262144) ::
      encodeChar ((a.val * 65536 + b.val * 256 + c.val) / 4096) ::
      encodeChar ((a.val * 65536 + b.val * 256 + c.val) / 64) ::
      encodeChar (a.val * 65536 + b.val * 256 + c.val) :: rest) si out =
      decodeLoop fuel rest (si + 4) (out ++ [a, b, c]) := by
  simp [decodeLoop, decodeQuantum_three]

theorem padChar_special : decodeMap padChar = 255 ∧ padChar ≠ 10 ∧ padChar ≠ 13 := by decide

theorem decodeQuantum_two (a b : Byte) (si : Nat) :
    decodeQuantum [encodeChar ((a.val * 65536 + b.val * 256) / 262144),
      encodeChar ((a.val * 65536 + b.val * 256) / 4096),
      encodeChar ((a.val * 65536 + b.val * 256) / 64), padChar] si =
      ⟨[], si + 4, [a, b], none⟩ := by
  unfold decodeQuantum
  rw [quantumLoop_encodeChar _ _ _ _ (by simp), quantumLoop_encodeChar _ _ _ _ (by simp),
    quantumLoop_encodeChar _ _ _ _ (by simp)]
  simp [quantumLoop, padChar_special, afterPadding, skipNewlines, convert_two]

theorem decodeQuantum_one (a : Byte) (si : Nat) :
    decodeQuantum [encodeChar ((a.val * 65536) / 262144),
      encodeChar ((a.val * 65536) / 4096), padChar, padChar] si =
      ⟨[], si + 4, [a], none⟩ := by
  unfold decodeQuantum
  rw [quantumLoop_encodeChar _ _ _ _ (by simp), quantumLoop_encodeChar _ _ _ _ (by simp)]
  simp [quantumLoop, padChar_special, afterPadding, skipNewlines, convert_one]

/-- The decoder undoes the padded encoding. -/
theorem decodeLoop_EncodeToString (bs : List Byte) : ∀ (fuel si : Nat) (out : List Byte),
    (EncodeToString bs).length ≤ fuel →
      decodeLoop fuel (EncodeToString bs) si out = (out ++ bs, none) := by
  induction bs using EncodeToString.induct with
  | case1 a b c rest ih =>
    intro fuel si out hf
    simp only [EncodeToString, List.length_cons] at hf ⊢
    obtain ⟨fuel, rfl⟩ : ∃ k, fuel = k + 1 := ⟨fuel - 1, by omega⟩
    rw [decodeLoop_three, ih _ _ _ (by omega)]
    simp
  | case2 a b =>
    intro fuel si out hf
    simp only [EncodeToString, List.length_cons] at hf ⊢
    obtain ⟨fuel, rfl⟩ : ∃ k, fuel = k + 1 := ⟨fuel - 1, by omega⟩
    simp [decodeLoop, decodeQuantum_two, decodeLoop_nil]
  | case3 a =>
    intro fuel si out hf
    simp only [EncodeToString, List.length_cons] at hf ⊢
    obtain ⟨fuel, rfl⟩ : ∃ k, fuel = k + 1 := ⟨fuel - 1, by omega⟩
    simp [decodeLoop, decodeQuantum_one, decodeLoop_nil]
  | case4 =>
    intro fuel si out _
    simp [EncodeToString, decodeLoop_nil]

theorem DecodeString_EncodeToString (bs : List Byte) :
    DecodeString (EncodeToString bs) = (bs, none) := by
  unfold DecodeString
  rw [decodeLoop_EncodeToString _ _ _ _ (Nat.le_refl _)]
  simp

end base64

/-! ## parseSSURL on a serialized descriptor -/

theorem EncodeToString_plain (bs : List Byte) :
    ∀ x ∈ base64.EncodeToString bs, x ≠ atSign ∧ x ≠ 47 := by
  have hp : base64.padChar ≠ atSign ∧ base64.padChar ≠ 47 := by decide
  induction bs using base64.EncodeToString.induct with
  | case1 a b c rest ih =>
    intro x hx
    simp only [base64.EncodeToString, List.mem_cons] at hx
    rcases hx with rfl | rfl | rfl | rfl | hx
    · exact ⟨(base64.encodeChar_plain _).1, (base64.encodeChar_plain _).2.1⟩
    · exact ⟨(base64.encodeChar_plain _).1, (base64.encodeChar_plain _).2.1⟩
    · exact ⟨(base64.encodeChar_plain _).1, (base64.encodeChar_plain _).2.1⟩
    · exact ⟨(base64.encodeChar_plain _).1, (base64.encodeChar_plain _).2.1⟩
    · exact ih x hx
  | case2 a b =>
    intro x hx
    simp only [base64.EncodeToString, List.mem_cons, List.not_mem_nil, or_false] at hx
    rcases hx with rfl | rfl | rfl | rfl
    · exact ⟨(base64.encodeChar_plain _).1, (base64.encodeChar_plain _).2.1⟩
    · exact ⟨(base64.encodeChar_plain _).1, (base64.encodeChar_plain _).2.1⟩
    · exact ⟨(base64.encodeChar_plain _).1, (base64.encodeChar_plain _).2.1⟩
    · exact hp
  | case3 a =>
    intro x hx
    simp only [base64.EncodeToString, List.mem_cons, List.not_mem_nil, or_false] at hx
    rcases hx with rfl | rfl | rfl | rfl
    · exact ⟨(base64.encodeChar_plain _).1, (base64.encodeChar_plain _).2.1⟩
    · exact ⟨(base64.encodeChar_plain _).1, (base64.encodeChar_plain _).2.1⟩
    · exact hp
    · exact hp
  | case4 =>
    intro x hx
    simp [base64.EncodeToString] at hx

/-- No `"/?"` starts in a text free of `/` that is followed by `@`. -/
theorem no_querySep_append (cred server : List Byte) (hc : ∀ x ∈ cred, x ≠ 47)
    (hs : ¬ querySep <:+: server) : ¬ querySep <:+: cred ++ atSign :: server := by
  induction cred with
  | nil =>
    rw [List.nil_append, List.infix_cons_iff]
    rintro (⟨t, ht⟩ | h)
    · simp only [querySep, List.cons_append, List.cons.injEq] at ht
      exact absurd ht.1 (by decide)
    · exact hs h
  | cons x cred ih =>
    rw [List.cons_append, List.infix_cons_iff]
    rintro (⟨t, ht⟩ | h)
    · simp only [querySep, List.cons_append, List.cons.injEq] at ht
      exact hc x (List.mem_cons_self _ _) ht.1.symm
    · exact ih (fun y hy => hc y (List.mem_cons_of_mem _ hy)) h

/-- The body of `parseSSURL` after the scheme and the query have been removed:
on `cred ++ "@" ++ server` with no `@` in `cred` it decodes `cred`. -/
theorem parseSSURL_of_body (rest cred server : List Byte)
    (hbody : (strings.Split rest querySep).headD [] = cred ++ atSign :: server)
    (hcred : atSign ∉ cred) :
    parseSSURL (ssScheme ++ rest) =
      match base64.DecodeString cred with
      | (_, some offset) => .error (.base64 offset)
      | (decoded, none) =>
        match strings.Index decoded [colon] with
        | none => .error .missingColon
        | some colonIndex =>
          .ok ⟨decoded.take colonIndex, decoded.drop (colonIndex + 1), server⟩ := by
  have hp : strings.HasPrefix (ssScheme ++ rest) ssScheme = true :=
    (strings.HasPrefix_iff _ _).2 ⟨rest, rfl⟩
  simp only [parseSSURL, hp, strings.TrimPrefix_append, hbody,
    strings.Index_append_singleton cred server atSign hcred]
  simp

theorem parseSSURL_serialized (cipherName secret server : List Byte)
    (hcolon : colon ∉ cipherName) (hquery : ¬ querySep <:+: server) :
    parseSSURL (ssScheme ++ base64.EncodeToString (cipherName ++ colon :: secret) ++
      [atSign] ++ server) = .ok ⟨cipherName, secret, server⟩ := by
  have hplain := EncodeToString_plain (cipherName ++ colon :: secret)
  have hbody := Split_head_of_no_querySep _
    (no_querySep_append _ server (fun x hx => (hplain x hx).2) hquery)
  have hat : atSign ∉ base64.EncodeToString (cipherName ++ colon :: secret) :=
    fun h => (hplain _ h).1 rfl
  have := parseSSURL_of_body _ _ _ hbody hat
  simp only [List.append_assoc, List.singleton_append] at this ⊢
  rw [this, base64.DecodeString_EncodeToString]
  simp [strings.Index_append_singleton cipherName secret colon hcolon]

/-- The URL that `main` parses gives the method, password and server that
`main` prints. -/
theorem parseSSURL_main_url :
    parseSSURL (ascii ("ss://Y2hhY2hhMjAtaWV0Zi1wb2x5MTMwNTpHUXh1RU5GQmxraUxwc1RFajl5bmpj" ++
      "@194.54.157.166:25338/?outline=1&prefix=POST%20")) =
      .ok ⟨ascii "chacha20-ietf-poly1305", ascii "GQxuENFBlkiLpsTEj9ynjc",
        ascii "194.54.157.166:25338"⟩ := by
  decide

/-- The decoder on small inputs: padding, a skipped newline, a short last
group, text after the padding. -/
theorem DecodeString_examples :
    base64.DecodeString (ascii "YQ==") = (ascii "a", none) ∧
      base64.DecodeString (ascii "YT\npi") = (ascii "a:b", none) ∧
      base64.DecodeString (ascii "YTo") = ([], some 0) ∧
      base64.DecodeString (ascii "YTo=x") = (ascii "a:", some 4) := by
  decide

/-- C1: for every cipher name without `:`, every secret and every server text
with neither `@` nor `"/?"`, `parseSSURL` applied to
`"ss://" ++ base64url(cipherName ++ ":" ++ secret) ++ "@" ++ server` returns no
error and gives back exactly the cipher name, the secret and the server text. -/
theorem parseSSURL_roundtrip (cipherName secret server : List Byte)
    (hcolon : colon ∉ cipherName) (_hat : atSign ∉ server)
    (hquery : ¬ querySep <:+: server) :
    parseSSURL (ssScheme ++ base64.EncodeToString (cipherName ++ colon :: secret) ++
      [atSign] ++ server) = .ok ⟨cipherName, secret, server⟩ :=
  parseSSURL_serialized cipherName secret server hcolon hquery

theorem parseSSURL_roundtrip_witness :
    parseSSURL (ssScheme ++ base64.EncodeToString (ascii "chacha20" ++ colon :: ascii "p:w") ++
      [atSign] ++ ascii "host:8388") = .ok ⟨ascii "chacha20", ascii "p:w", ascii "host:8388"⟩ :=
  parseSSURL_roundtrip (ascii "chacha20") (ascii "p:w") (ascii "host:8388")
    (by decide) (by decide) (by decide)

/-- C5: for every descriptor `"ss://" ++ rest` with no `"/?"` in `rest` and
every text `q`, `parseSSURL` returns on the descriptor followed by `"/?"` and
`q` exactly what it returns on the descriptor: the same error, or the same
method, password and server address. -/
theorem parseSSURL_query_ignored (rest q : List Byte) (h : ¬ querySep <:+: rest) :
    parseSSURL (ssScheme ++ rest ++ querySep ++ q) = parseSSURL (ssScheme ++ rest) := by
  have hp1 : strings.HasPrefix (ssScheme ++ (rest ++ querySep ++ q)) ssScheme = true :=
    (strings.HasPrefix_iff _ _).2 ⟨_, rfl⟩
  have hp2 : strings.HasPrefix (ssScheme ++ rest) ssScheme = true :=
    (strings.HasPrefix_iff _ _).2 ⟨_, rfl⟩
  rw [show ssScheme ++ rest ++ querySep ++ q = ssScheme ++ (rest ++ querySep ++ q) by simp]
  simp only [parseSSURL, hp1, hp2, strings.TrimPrefix_append, Split_head_append_querySep rest q h,
    Split_head_of_no_querySep rest h]

theorem parseSSURL_query_ignored_witness :
    parseSSURL (ssScheme ++ ascii "YTpi@h:1" ++ querySep ++ ascii "x@y:z/?w") =
      parseSSURL (ssScheme ++ ascii "YTpi@h:1") :=
  parseSSURL_query_ignored (ascii "YTpi@h:1") (ascii "x@y:z/?w") (by decide)

/-! ## The bounded loops never run out -/

namespace strings

/-- `genSplitLoop` gives the same parts for every bound from the length of `s`
on: the bound of `Split` never cuts the loop short. -/
theorem genSplitLoop_bound (sep : List Byte) (hsep : sep ≠ []) : ∀ (n m : Nat) (s : List Byte),
    s.length ≤ n → s.length ≤ m → genSplitLoop n s sep = genSplitLoop m s sep := by
  intro n
  induction n with
  | zero =>
    intro m s hn _
    have hs : s = [] := List.length_eq_zero.1 (by omega)
    subst hs
    cases m with
    | zero => rfl
    | succ m => simp [genSplitLoop, Index, hsep]
  | succ n ih =>
    intro m s hn hm
    cases hi : Index s sep with
    | none => cases m <;> simp [genSplitLoop, hi]
    | some k =>
      obtain ⟨h1, _⟩ := Index_eq_some _ _ _ hi
      have hlen := congrArg List.length h1
      simp only [List.length_append, List.length_take, List.length_drop] at hlen
      have hpos : 0 < sep.length := List.length_pos.2 hsep
      cases m with
      | zero => omega
      | succ m =>
        simp only [genSplitLoop, hi]
        rw [ih m _ (by simp only [List.length_drop]; omega)
          (by simp only [List.length_drop]; omega)]

end strings

namespace base64

theorem skipNewlines_length (src : List Byte) : ∀ si,
    (skipNewlines src si).1.length ≤ src.length := by
  induction src with
  | nil => intro si; simp [skipNewlines]
  | cons c rest ih =>
    intro si
    simp only [skipNewlines]
    split
    · exact Nat.le_succ_of_le (ih _)
    · exact Nat.le_refl _

theorem afterPadding_length (rest : List Byte) (si : Nat) (dbuf : List Nat) :
    (afterPadding rest si dbuf).rest.length ≤ rest.length := by
  simp only [afterPadding]
  split <;> exact skipNewlines_length _ _

theorem quantumLoop_length (src : List Byte) : ∀ si dbuf,
    (quantumLoop src si dbuf).rest.length ≤ src.length ∧
      (dbuf.length < 4 → src ≠ [] → (quantumLoop src si dbuf).rest.length < src.length) := by
  induction src with
  | nil =>
    intro si dbuf
    refine ⟨?_, fun _ h => absurd rfl h⟩
    simp only [quantumLoop]
    split <;> (try split) <;> simp
  | cons c rest ih =>
    intro si dbuf
    simp only [quantumLoop]
    by_cases h4 : dbuf.length = 4
    · simp only [h4, if_true]
      exact ⟨Nat.le_refl _, fun h => absurd h (by omega)⟩
    · simp only [h4, if_false]
      have key : ∀ q : Quantum, q.rest.length ≤ rest.length →
          q.rest.length ≤ (c :: rest).length ∧
            (dbuf.length < 4 → c :: rest ≠ [] → q.rest.length < (c :: rest).length) := by
        intro q hq
        simp only [List.length_cons]
        exact ⟨by omega, fun _ _ => by omega⟩
      split
      · exact key _ (ih _ _).1
      · split
        · exact key _ (ih _ _).1
        · split
          · exact key _ (Nat.le_refl _)
          · split
            · exact key _ (Nat.le_refl _)
            · split
              · have hs := skipNewlines_length rest (si + 1)
                split
                · exact key _ (by simp)
                · rename_i d rest2 heq
                  rw [heq] at hs
                  split
                  · exact key _ hs
                  · refine key _ (Nat.le_trans (afterPadding_length _ _ _) ?_)
                    simp only [List.length_cons] at hs
                    omega
              · exact key _ (afterPadding_length _ _ _)

/-- `decodeLoop` gives the same result for every fuel from the length of the
input on: the fuel of `DecodeString` never runs out. -/
theorem decodeLoop_fuel : ∀ (n m : Nat) (src : List Byte) (si : Nat) (out : List Byte),
    src.length ≤ n → src.length ≤ m → decodeLoop n src si out = decodeLoop m src si out := by
  intro n
  induction n with
  | zero =>
    intro m src si out hn _
    have hs : src = [] := List.length_eq_zero.1 (by omega)
    subst hs
    rw [decodeLoop_nil, decodeLoop_nil]
  | succ n ih =>
    intro m src si out hn hm
    by_cases hs : src = []
    · subst hs
      rw [decodeLoop_nil, decodeLoop_nil]
    · have hlt := (quantumLoop_length src si []).2 (by simp) hs
      have hpos : 0 < src.length := List.length_pos.2 hs
      cases m with
      | zero => omega
      | succ m =>
        simp only [decodeLoop, hs, if_false]
        split
        · rfl
        · exact ih m _ _ _ (by unfold decodeQuantum; omega) (by unfold decodeQuantum; omega)

theorem decodeMap_ne_iff (c : Byte) : decodeMap c ≠ 255 ↔ c ∈ encodeURL := by
  unfold decodeMap
  have hlen : encodeURL.length = 64 := rfl
  constructor
  · intro h
    by_contra hc
    have : encodeURL.indexOf c = 64 := by
      rw [← hlen]; exact List.indexOf_eq_length.2 hc
    simp [this] at h
  · intro h
    have := List.indexOf_lt_length.2 h
    rw [hlen] at this
    simp only [this, if_true]
    omega

theorem newline_not_mem : (10 : Byte) ∉ encodeURL ∧ (13 : Byte) ∉ encodeURL ∧
    padChar ∉ encodeURL ∧ padChar ≠ 10 ∧ padChar ≠ 13 := by decide

theorem skipNewlines_strip (src : List Byte) : ∀ si,
    stripNewlines (skipNewlines src si).1 = stripNewlines src ∧
      ((skipNewlines src si).1 = [] ↔ stripNewlines src = []) ∧
      ∀ d rest2, (skipNewlines src si).1 = d :: rest2 →
        stripNewlines src = d :: stripNewlines rest2 := by
  induction src with
  | nil => intro si; simp [skipNewlines, stripNewlines]
  | cons c rest ih =>
    intro si
    rw [skipNewlines]
    by_cases hc : c = 10 ∨ c = 13
    · have hs : stripNewlines (c :: rest) = stripNewlines rest := by
        rcases hc with rfl | rfl <;> simp [stripNewlines]
      rw [if_pos hc, hs]
      exact ih _
    · rw [if_neg hc]
      have hs : stripNewlines (c :: rest) = c :: stripNewlines rest := by
        simp only [not_or] at hc
        simp [stripNewlines, hc.1, hc.2]
      refine ⟨rfl, by simp [hs], ?_⟩
      intro d rest2 h
      simp only [List.cons.injEq] at h
      rw [hs, h.1, h.2]

theorem quantumLoop_valid (c : Byte) (rest : List Byte) (si : Nat) (dbuf : List Nat)
    (h : dbuf.length < 4) (hc : c ∈ encodeURL) :
    quantumLoop (c :: rest) si dbuf = quantumLoop rest (si + 1) (dbuf ++ [decodeMap c]) := by
  have h1 : dbuf.length ≠ 4 := by omega
  have h2 := (decodeMap_ne_iff c).2 hc
  simp [quantumLoop, h1, h2]

theorem quantumLoop_newline (c : Byte) (rest : List Byte) (si : Nat) (dbuf : List Nat)
    (h : dbuf.length < 4) (hc : c = 10 ∨ c = 13) :
    quantumLoop (c :: rest) si dbuf = quantumLoop rest (si + 1) dbuf := by
  have h1 : dbuf.length ≠ 4 := by omega
  have h2 : decodeMap c = 255 := by
    rcases hc with rfl | rfl <;> decide
  simp [quantumLoop, h1, h2, hc]

theorem quantumLoop_garbage (c : Byte) (rest : List Byte) (si : Nat) (dbuf : List Nat)
    (h : dbuf.length < 4) (hc : c ∉ encodeURL) (hn : ¬ (c = 10 ∨ c = 13)) (hp : c ≠ padChar) :
    quantumLoop (c :: rest) si dbuf = ⟨rest, si + 1, [], some si⟩ := by
  have h1 : dbuf.length ≠ 4 := by omega
  have h2 : decodeMap c = 255 := by
    by_contra hh
    exact hc ((decodeMap_ne_iff c).1 hh)
  simp [quantumLoop, h1, h2, hn, hp]

theorem quantumLoop_pad (rest : List Byte) (si : Nat) (dbuf : List Nat)
    (h : dbuf.length < 4) :
    quantumLoop (padChar :: rest) si dbuf =
      if dbuf.length < 2 then ⟨rest, si + 1, [], some si⟩
      else if dbuf.length = 2 then
        match (skipNewlines rest (si + 1)).1 with
        | [] => ⟨[], (skipNewlines rest (si + 1)).2, [], some (skipNewlines rest (si + 1)).2⟩
        | d :: rest2 =>
          if d ≠ padChar then
            ⟨d :: rest2, (skipNewlines rest (si + 1)).2, [],
              some ((skipNewlines rest (si + 1)).2 - 1)⟩
          else afterPadding rest2 ((skipNewlines rest (si + 1)).2 + 1) dbuf
      else afterPadding rest (si + 1) dbuf := by
  have h1 : dbuf.length ≠ 4 := by omega
  have h2 : decodeMap padChar = 255 := padChar_special.1
  have h3 : ¬ (padChar = 10 ∨ padChar = 13) := by decide
  rw [quantumLoop]
  simp only [h1, h2, h3, if_false, ne_eq, not_true_eq_false]

theorem decodeLoop_unfold (src : List Byte) (hs : src ≠ []) (fuel : Nat)
    (hf : src.length ≤ fuel) (si : Nat) (out : List Byte) :
    decodeLoop fuel src si out =
      if (quantumLoop src si []).err ≠ none then
        (out ++ (quantumLoop src si []).out, (quantumLoop src si []).err)
      else decodeLoop (quantumLoop src si []).rest.length (quantumLoop src si []).rest
        (quantumLoop src si []).nsi (out ++ (quantumLoop src si []).out) := by
  have hpos : 0 < src.length := List.length_pos.2 hs
  have hlt := (quantumLoop_length src si []).2 (by simp) hs
  obtain ⟨fuel, rfl⟩ : ∃ k, fuel = k + 1 := ⟨fuel - 1, by omega⟩
  simp only [decodeLoop, hs, if_false, decodeQuantum]
  split
  · rfl
  · exact decodeLoop_fuel _ _ _ _ _ (by omega) (Nat.le_refl _)

theorem afterPadding_accept (rest : List Byte) (si : Nat) (dbuf : List Nat) (out : List Byte) :
    ((afterPadding rest si dbuf).err = none ∧
      (decodeLoop (afterPadding rest si dbuf).rest.length (afterPadding rest si dbuf).rest
        (afterPadding rest si dbuf).nsi out).2 = none) ↔ stripNewlines rest = [] := by
  have hs := (skipNewlines_strip rest si).2.1
  simp only [afterPadding]
  by_cases hp : (skipNewlines rest si).1 = []
  · simp only [hp, ne_eq, not_true_eq_false, if_false, decodeLoop_nil, true_and]
    exact ⟨fun _ => hs.1 hp, fun _ => trivial⟩
  · simp only [hp, ne_eq, not_false_eq_true, if_true]
    constructor
    · rintro ⟨h, _⟩
      cases h
    · intro h
      exact absurd (hs.2 h) hp

theorem stripNewlines_cons_of_not (c : Byte) (rest : List Byte) (hn : ¬ (c = 10 ∨ c = 13)) :
    stripNewlines (c :: rest) = c :: stripNewlines rest := by
  simp only [not_or] at hn
  simp [stripNewlines, hn.1, hn.2]

theorem stripNewlines_cons_of_newline (c : Byte) (rest : List Byte) (hn : c = 10 ∨ c = 13) :
    stripNewlines (c :: rest) = stripNewlines rest := by
  rcases hn with rfl | rfl <;> simp [stripNewlines]

/-- From any place in a group, the decoder goes through the rest of the input
without an error exactly when `acceptFrom` accepts it with its newlines
removed. -/
theorem quantumLoop_accept (src : List Byte) : ∀ (si : Nat) (dbuf : List Nat) (out : List Byte),
    dbuf.length < 4 →
    (((quantumLoop src si dbuf).err = none ∧
      (decodeLoop (quantumLoop src si dbuf).rest.length (quantumLoop src si dbuf).rest
        (quantumLoop src si dbuf).nsi out).2 = none) ↔
      acceptFrom dbuf.length (stripNewlines src) = true) := by
  induction src with
  | nil =>
    intro si dbuf out h
    have h4 : dbuf.length ≠ 4 := by omega
    by_cases h0 : dbuf.length = 0
    · simp [quantumLoop, h0, stripNewlines, acceptFrom, decodeLoop_nil]
    · simp [quantumLoop, h0, h4, stripNewlines, acceptFrom]
  | cons c rest ih =>
    intro si dbuf out h
    have whole : ∀ si out, (decodeLoop rest.length rest si out).2 = none ↔
        acceptFrom 0 (stripNewlines rest) = true := by
      intro si out
      by_cases hr : rest = []
      · subst hr
        simp [decodeLoop_nil, stripNewlines, acceptFrom]
      · rw [decodeLoop_unfold rest hr _ (Nat.le_refl _)]
        have := ih si [] (out ++ (quantumLoop rest si []).out) (by simp)
        simp only [List.length_nil] at this
        rw [← this]
        by_cases he : (quantumLoop rest si []).err = none
        · simp [he]
        · simp [he]
    by_cases hc : c ∈ encodeURL
    · have hn : ¬ (c = 10 ∨ c = 13) := by
        rintro (rfl | rfl)
        · exact newline_not_mem.1 hc
        · exact newline_not_mem.2.1 hc
      rw [quantumLoop_valid c rest si dbuf h hc, stripNewlines_cons_of_not c rest hn]
      simp only [acceptFrom, hc, if_true]
      by_cases h3 : dbuf.length = 3
      · rw [quantumLoop_full _ _ _ (by simp [h3])]
        simp only [h3, true_and]
        exact whole _ _
      · have := ih (si + 1) (dbuf ++ [decodeMap c]) out (by simp; omega)
        rw [this]
        simp only [List.length_append, List.length_singleton]
        rw [Nat.mod_eq_of_lt (by omega)]
    · by_cases hn : c = 10 ∨ c = 13
      · rw [quantumLoop_newline c rest si dbuf h hn, stripNewlines_cons_of_newline c rest hn]
        exact ih _ _ _ h
      · rw [stripNewlines_cons_of_not c rest hn]
        by_cases hp : c = padChar
        · subst hp
          rw [quantumLoop_pad rest si dbuf h]
          simp only [acceptFrom, hc, if_false, if_true]
          by_cases h2 : dbuf.length < 2
          · have e2 : dbuf.length ≠ 2 := by omega
            have e3 : dbuf.length ≠ 3 := by omega
            rw [if_pos h2]
            simp [e2, e3]
          · rw [if_neg h2]
            by_cases e2 : dbuf.length = 2
            · have hs := skipNewlines_strip rest (si + 1)
              have e3 : dbuf.length ≠ 3 := by omega
              rw [if_pos e2]
              cases hsk : (skipNewlines rest (si + 1)).1 with
              | nil =>
                have : stripNewlines rest = [] := hs.2.1.1 hsk
                simp [this, e3]
              | cons d rest2 =>
                have hd : stripNewlines rest = d :: stripNewlines rest2 := hs.2.2 d rest2 hsk
                simp only []
                by_cases hdp : d = padChar
                · subst hdp
                  rw [if_neg (by simp), afterPadding_accept]
                  simp [e2, hd]
                · rw [if_pos hdp]
                  simp [e2, e3, hd, hdp]
            · have e3 : dbuf.length = 3 := by omega
              rw [if_neg e2, afterPadding_accept]
              simp [e3]
        · rw [quantumLoop_garbage c rest si dbuf h hc hn hp]
          simp [acceptFrom, hc, hp]

/-- The decoder of `base64.URLEncoding` returns no error exactly on the texts
that `acceptFrom` accepts once their `\r` and `\n` are removed. -/
theorem DecodeString_ok_iff_acceptFrom (s : List Byte) :
    (DecodeString s).2 = none ↔ acceptFrom 0 (stripNewlines s) = true := by
  unfold DecodeString
  by_cases hr : s = []
  · subst hr
    simp [decodeLoop_nil, stripNewlines, acceptFrom]
  · rw [decodeLoop_unfold s hr _ (Nat.le_refl _)]
    have := quantumLoop_accept s 0 [] ([] ++ (quantumLoop s 0 []).out) (by simp)
    simp only [List.length_nil] at this
    rw [← this]
    by_cases he : (quantumLoop s 0 []).err = none
    · simp [he]
    · simp [he]

theorem acceptFrom_zero (t : List Byte) : acceptFrom 0 t = paddedText t := by
  induction t using paddedText.induct with
  | case1 => rfl
  | case2 c0 c1 c2 c3 rest ih =>
    have hp : padChar ∉ encodeURL := newline_not_mem.2.2.1
    simp only [acceptFrom, paddedText, ← ih]
    by_cases h0 : c0 ∈ encodeURL
    · by_cases h1 : c1 ∈ encodeURL
      · by_cases h2 : c2 ∈ encodeURL
        · by_cases h3 : c3 ∈ encodeURL
          · have h3p : c3 ≠ padChar := fun h => hp (h ▸ h3)
            simp [h0, h1, h2, h3, h3p]
          · by_cases h3p : c3 = padChar
            · simp [h0, h1, h2, h3, h3p, hp]
            · simp [h0, h1, h2, h3, h3p]
        · by_cases h2p : c2 = padChar
          · subst h2p
            by_cases h3p : c3 = padChar
            · subst h3p
              simp [h0, h1, hp]
            · simp [h0, h1, hp, h3p]
          · simp [h0, h1, h2, h2p]
      · by_cases h1p : c1 = padChar
        · simp [h0, h1, h1p, hp]
        · simp [h0, h1, h1p]
    · by_cases h0p : c0 = padChar
      · simp [h0, h0p, hp]
      · simp [h0, h0p]
  | case3 t h1 h2 =>
    have hp : padChar ∉ encodeURL := newline_not_mem.2.2.1
    match t, h1, h2 with
    | [], h1, _ => exact absurd rfl h1
    | [c0], _, _ =>
      simp only [acceptFrom, paddedText]
      by_cases h0 : c0 ∈ encodeURL <;> simp [h0]
    | [c0, c1], _, _ =>
      simp only [acceptFrom, paddedText]
      by_cases h0 : c0 ∈ encodeURL <;> by_cases h1 : c1 ∈ encodeURL <;> simp [h0, h1]
    | [c0, c1, c2], _, _ =>
      simp only [acceptFrom, paddedText]
      by_cases h0 : c0 ∈ encodeURL <;> by_cases h1 : c1 ∈ encodeURL <;>
        by_cases h2 : c2 ∈ encodeURL <;> simp [h0, h1, h2]
    | c0 :: c1 :: c2 :: c3 :: rest, _, h2 => exact absurd rfl (h2 c0 c1 c2 c3 rest)

/-- The decoder of `base64.URLEncoding` returns no error exactly on the texts
that, once their `\r` and `\n` are removed, are padded URL-safe base64. -/
theorem DecodeString_ok_iff (s : List Byte) :
    (DecodeString s).2 = none ↔ paddedText (stripNewlines s) = true := by
  rw [DecodeString_ok_iff_acceptFrom, acceptFrom_zero]

end base64

theorem parseSSURL_missingScheme (s : List Byte) (h : ¬ ssScheme <+: s) :
    parseSSURL s = .error .missingScheme := by
  have hp : ¬ strings.HasPrefix s ssScheme = true := fun hh => h ((strings.HasPrefix_iff _ _).1 hh)
  simp [parseSSURL, hp]

theorem parseSSURL_missingAt (rest body : List Byte) (hbody : IsBeforeFirst querySep rest body)
    (h : atSign ∉ body) : parseSSURL (ssScheme ++ rest) = .error .missingAt := by
  have hp : strings.HasPrefix (ssScheme ++ rest) ssScheme = true :=
    (strings.HasPrefix_iff _ _).2 ⟨rest, rfl⟩
  have hb := (Split_head_isBeforeFirst rest querySep).unique hbody
  simp only [parseSSURL, hp, strings.TrimPrefix_append, hb,
    (strings.Index_singleton_eq_none_iff body atSign).2 h]
  simp

/-- A text that holds `c` splits at its first `c`. -/
theorem split_at_first (body : List Byte) (c : Byte) (h : c ∈ body) :
    ∃ cred server, body = cred ++ c :: server ∧ c ∉ cred := by
  cases hi : strings.Index body [c] with
  | none => exact absurd h ((strings.Index_singleton_eq_none_iff _ _).1 hi)
  | some m =>
    obtain ⟨h1, h2, _⟩ := strings.Index_singleton_eq_some _ _ _ hi
    exact ⟨_, _, h1, h2⟩

/-- The outcome of `parseSSURL` once the text before the first `"/?"` is known
to be `cred ++ "@" ++ server` with no `@` in `cred`. -/
theorem parseSSURL_credentials (rest body cred server : List Byte)
    (hbody : IsBeforeFirst querySep rest body) (hsplit : body = cred ++ atSign :: server)
    (hcred : atSign ∉ cred) :
    (∀ decoded offset, base64.DecodeString cred = (decoded, some offset) →
        parseSSURL (ssScheme ++ rest) = .error (.base64 offset)) ∧
      (∀ decoded, base64.DecodeString cred = (decoded, none) → colon ∉ decoded →
        parseSSURL (ssScheme ++ rest) = .error .missingColon) ∧
      (∀ method password, base64.DecodeString cred = (method ++ colon :: password, none) →
        colon ∉ method → parseSSURL (ssScheme ++ rest) = .ok ⟨method, password, server⟩) := by
  have hb := (Split_head_isBeforeFirst rest querySep).unique hbody
  have hmain := parseSSURL_of_body rest cred server (hb.trans hsplit) hcred
  refine ⟨?_, ?_, ?_⟩
  · intro decoded offset hd
    rw [hmain, hd]
  · intro decoded hd hc
    rw [hmain, hd]
    simp only
    rw [(strings.Index_singleton_eq_none_iff decoded colon).2 hc]
  · intro method password hd hc
    rw [hmain, hd]
    simp only
    rw [strings.Index_append_singleton method password colon hc]
    simp

/-- Every string falls in exactly one of the five outcomes of `parseSSURL`. -/
theorem parseSSURL_outcome (s : List Byte) :
    (SchemeMissing s ∧ parseSSURL s = .error .missingScheme) ∨
    (AtMissing s ∧ parseSSURL s = .error .missingAt) ∨
    (CredentialsNotPadded s ∧ ∃ offset, parseSSURL s = .error (.base64 offset)) ∨
    (ColonMissing s ∧ parseSSURL s = .error .missingColon) ∨
    (∃ rest body cred method password server, s = ssScheme ++ rest ∧
      IsBeforeFirst querySep rest body ∧ body = cred ++ atSign :: server ∧ atSign ∉ cred ∧
      base64.DecodeString cred = (method ++ colon :: password, none) ∧ colon ∉ method ∧
      parseSSURL s = .ok ⟨method, password, server⟩) := by
  by_cases hs : ssScheme <+: s
  · obtain ⟨rest, rfl⟩ := hs
    right
    have hbody := Split_head_isBeforeFirst rest querySep
    generalize (strings.Split rest querySep).headD [] = body at hbody
    by_cases hat : atSign ∈ body
    · right
      obtain ⟨cred, server, hsplit, hcred⟩ := split_at_first body atSign hat
      obtain ⟨h1, h2, h3⟩ := parseSSURL_credentials rest body cred server hbody hsplit hcred
      cases hd : base64.DecodeString cred with
      | mk decoded err =>
        cases err with
        | some offset =>
          left
          have hbad : base64.paddedText (base64.stripNewlines cred) = false := by
            cases hpt : base64.paddedText (base64.stripNewlines cred) with
            | false => rfl
            | true =>
              have := (base64.DecodeString_ok_iff cred).2 hpt
              rw [hd] at this
              cases this
          exact ⟨⟨rest, body, cred, server, rfl, hbody, hsplit, hcred, hbad⟩,
            offset, h1 _ _ hd⟩
        | none =>
          right
          by_cases hc : colon ∈ decoded
          · right
            obtain ⟨method, password, hmp, hm⟩ := split_at_first decoded colon hc
            subst hmp
            exact ⟨rest, body, cred, method, password, server, rfl, hbody, hsplit, hcred, hd,
              hm, h3 _ _ hd hm⟩
          · left
            exact ⟨⟨rest, body, cred, server, decoded, rfl, hbody, hsplit, hcred, hd, hc⟩,
              h2 _ hd hc⟩
    · left
      exact ⟨⟨rest, body, rfl, hbody, hat⟩, parseSSURL_missingAt rest body hbody hat⟩
  · left
    exact ⟨hs, parseSSURL_missingScheme s hs⟩

theorem parseSSURL_of_atMissing (s : List Byte) (h : AtMissing s) :
    parseSSURL s = .error .missingAt := by
  obtain ⟨rest, body, rfl, hbody, hat⟩ := h
  exact parseSSURL_missingAt rest body hbody hat

theorem parseSSURL_of_credentialsNotPadded (s : List Byte) (h : CredentialsNotPadded s) :
    ∃ offset, parseSSURL s = .error (.base64 offset) := by
  obtain ⟨rest, body, cred, server, rfl, hbody, hsplit, hcred, herr⟩ := h
  cases hd : base64.DecodeString cred with
  | mk decoded err =>
    cases err with
    | none =>
      have := (base64.DecodeString_ok_iff cred).1 (by rw [hd])
      rw [this] at herr
      cases herr
    | some offset =>
      exact ⟨offset, (parseSSURL_credentials rest body cred server hbody hsplit hcred).1 _ _ hd⟩

theorem parseSSURL_of_colonMissing (s : List Byte) (h : ColonMissing s) :
    parseSSURL s = .error .missingColon := by
  obtain ⟨rest, body, cred, server, decoded, rfl, hbody, hsplit, hcred, hd, hc⟩ := h
  exact (parseSSURL_credentials rest body cred server hbody hsplit hcred).2.1 _ hd hc

/-- C2, the claim fails in its case (3), with "valid URL-safe base64" read as
the specification words it, "URL-safe alphabet, no padding required".  The
string `"ss://YTpiYw@h"` starts with the scheme, holds an `@` and no `"/?"`,
its credentials `"YTpiYw"` are valid in those words, being the encoding of
`"a:bc"` without its padding, and `"a:bc"` holds a `:`: none of the four cases,
yet `parseSSURL` returns the error of the decoder.  And the credentials of
`"ss://YT\npi@h"` hold a newline, so are not valid in those words, yet
`parseSSURL` succeeds, the decoder skipping the newline. -/
theorem parseSSURL_failure_counterexample :
    (ssScheme <+: ascii "ss://YTpiYw@h" ∧
      ascii "ss://YTpiYw@h" = ssScheme ++ (ascii "YTpiYw" ++ atSign :: ascii "h") ∧
      ¬ querySep <:+: ascii "YTpiYw" ++ atSign :: ascii "h" ∧
      atSign ∉ ascii "YTpiYw" ∧
      base64.validURLSafe (ascii "YTpiYw") = true ∧
      ascii "YTpiYw" = base64.trimPadding (base64.EncodeToString (ascii "a:bc")) ∧
      colon ∈ ascii "a:bc" ∧
      parseSSURL (ascii "ss://YTpiYw@h") = .error (.base64 4)) ∧
    (base64.validURLSafe (ascii "YT\npi") = false ∧
      parseSSURL (ascii "ss://YT\npi@h") = .ok ⟨ascii "a", ascii "b", ascii "h"⟩) := by
  decide

/-- C2 as amended: `parseSSURL` returns an error exactly in four cases, met in
this order: the string does not start with `"ss://"` (a `FormatError`); the
text between the scheme and the first `"/?"` holds no `@` (a `FormatError`);
the credentials before the first `@`, once their `\r` and `\n` are removed,
are not padded URL-safe base64, groups of four characters of the alphabet of
which the last may end in `=` or `==` (a `DecodeError`); the decoded
credentials hold no `:` (a `FormatError`).  In every other case it succeeds. -/
theorem parseSSURL_failure_characterisation (s : List Byte) :
    (parseSSURL s = .error .missingScheme ↔ SchemeMissing s) ∧
    (parseSSURL s = .error .missingAt ↔ AtMissing s) ∧
    ((∃ offset, parseSSURL s = .error (.base64 offset)) ↔ CredentialsNotPadded s) ∧
    (parseSSURL s = .error .missingColon ↔ ColonMissing s) ∧
    ((∃ d, parseSSURL s = .ok d) ↔
      ¬ (SchemeMissing s ∨ AtMissing s ∨ CredentialsNotPadded s ∨ ColonMissing s)) ∧
    (∀ e, parseSSURL s = .error e →
      (e.kind = .DecodeError ↔ CredentialsNotPadded s) ∧
      (e.kind = .FormatError ↔ SchemeMissing s ∨ AtMissing s ∨ ColonMissing s)) := by
  have f1 := parseSSURL_missingScheme s
  have f2 := parseSSURL_of_atMissing s
  have f3 := parseSSURL_of_credentialsNotPadded s
  have f4 := parseSSURL_of_colonMissing s
  rcases parseSSURL_outcome s with ⟨c, hr⟩ | ⟨c, hr⟩ | ⟨c, offset, hr⟩ | ⟨c, hr⟩ |
    ⟨rest, body, cred, method, password, server, _, _, _, _, _, _, hr⟩
  · have n2 : ¬ AtMissing s := fun h => by simpa [hr] using f2 h
    have n3 : ¬ CredentialsNotPadded s := fun h => by simpa [hr] using f3 h
    have n4 : ¬ ColonMissing s := fun h => by simpa [hr] using f4 h
    have c1 : SchemeMissing s := c
    simp only [hr, c1, n2, n3, n4]
    refine ⟨by simp, by simp, by simp, by simp, by simp, ?_⟩
    intro e he
    cases he
    simp [ParseError.kind]
  · have n1 : ¬ SchemeMissing s := fun h => by simpa [hr] using f1 h
    have n3 : ¬ CredentialsNotPadded s := fun h => by simpa [hr] using f3 h
    have n4 : ¬ ColonMissing s := fun h => by simpa [hr] using f4 h
    simp only [hr, c, n1, n3, n4]
    refine ⟨by simp, by simp, by simp, by simp, by simp, ?_⟩
    intro e he
    cases he
    simp [ParseError.kind]
  · have n1 : ¬ SchemeMissing s := fun h => by simpa [hr] using f1 h
    have n2 : ¬ AtMissing s := fun h => by simpa [hr] using f2 h
    have n4 : ¬ ColonMissing s := fun h => by simpa [hr] using f4 h
    simp only [hr, c, n1, n2, n4]
    refine ⟨by simp, by simp, by simp, by simp, by simp, ?_⟩
    intro e he
    cases he
    simp [ParseError.kind]
  · have n1 : ¬ SchemeMissing s := fun h => by simpa [hr] using f1 h
    have n2 : ¬ AtMissing s := fun h => by simpa [hr] using f2 h
    have n3 : ¬ CredentialsNotPadded s := fun h => by simpa [hr] using f3 h
    simp only [hr, c, n1, n2, n3]
    refine ⟨by simp, by simp, by simp, by simp, by simp, ?_⟩
    intro e he
    cases he
    simp [ParseError.kind]
  · have n1 : ¬ SchemeMissing s := fun h => by simpa [hr] using f1 h
    have n2 : ¬ AtMissing s := fun h => by simpa [hr] using f2 h
    have n3 : ¬ CredentialsNotPadded s := fun h => by simpa [hr] using f3 h
    have n4 : ¬ ColonMissing s := fun h => by simpa [hr] using f4 h
    simp only [hr, n1, n2, n3, n4]
    refine ⟨by simp, by simp, by simp, by simp, by simp, ?_⟩
    intro e he
    cases he

theorem parseSSURL_failure_characterisation_witness :
    CredentialsNotPadded (ascii "ss://YTo@h") ∧
      (ParseError.base64 0).kind = .DecodeError ∧
      ¬ (∃ d, parseSSURL (ascii "ss://YTo@h") = .ok d) :=
  have hc : CredentialsNotPadded (ascii "ss://YTo@h") :=
    (parseSSURL_failure_characterisation (ascii "ss://YTo@h")).2.2.1.1 ⟨0, by decide⟩
  ⟨hc,
    ((parseSSURL_failure_characterisation (ascii "ss://YTo@h")).2.2.2.2.2 (.base64 0)
      (by decide)).1.2 hc,
    fun h => (parseSSURL_failure_characterisation (ascii "ss://YTo@h")).2.2.2.2.1.1 h
      (Or.inr (Or.inr (Or.inl hc)))⟩

/-- C3, the claim fails: on `"ss://YTpi@x@y"` the text left after the scheme,
`"YTpi@x@y"`, has its last `@` between `"YTpi@x"` and `"y"`, yet `parseSSURL`
succeeds with the server address `"x@y"`, which holds an `@`, and with the
credentials `"a:b"`, which are not what `"YTpi@x"` decodes to. -/
theorem parseSSURL_last_at_counterexample :
    parseSSURL (ascii "ss://YTpi@x@y") = .ok ⟨ascii "a", ascii "b", ascii "x@y"⟩ ∧
      atSign ∈ ascii "x@y" ∧
      ascii "YTpi@x@y" = ascii "YTpi@x" ++ atSign :: ascii "y" ∧ atSign ∉ ascii "y" ∧
      base64.DecodeString (ascii "YTpi@x") ≠ (ascii "a:b", none) := by
  decide

/-- C3 as amended: `parseSSURL` splits the text left after the scheme and the
query have been removed at its FIRST `@`.  For every input in which that text
holds an `@`, the text is `cred ++ "@" ++ server` with no `@` in `cred`, the
part that is base64-decoded is `cred`, and a successful result has the server
address `server`, all that follows the first `@`. -/
theorem parseSSURL_splits_at_first_at (rest body : List Byte)
    (hbody : IsBeforeFirst querySep rest body) (hat : atSign ∈ body) :
    ∃ cred server, body = cred ++ atSign :: server ∧ atSign ∉ cred ∧
      (∀ decoded offset, base64.DecodeString cred = (decoded, some offset) →
        parseSSURL (ssScheme ++ rest) = .error (.base64 offset)) ∧
      (∀ decoded, base64.DecodeString cred = (decoded, none) → colon ∉ decoded →
        parseSSURL (ssScheme ++ rest) = .error .missingColon) ∧
      (∀ method password, base64.DecodeString cred = (method ++ colon :: password, none) →
        colon ∉ method → parseSSURL (ssScheme ++ rest) = .ok ⟨method, password, server⟩) := by
  obtain ⟨cred, server, hsplit, hcred⟩ := split_at_first body atSign hat
  exact ⟨cred, server, hsplit, hcred,
    parseSSURL_credentials rest body cred server hbody hsplit hcred⟩

theorem parseSSURL_splits_at_first_at_witness :
    ∃ cred server, ascii "YTpi@x@y" = cred ++ atSign :: server ∧ atSign ∉ cred ∧
      (∀ decoded offset, base64.DecodeString cred = (decoded, some offset) →
        parseSSURL (ssScheme ++ ascii "YTpi@x@y/?q") = .error (.base64 offset)) ∧
      (∀ decoded, base64.DecodeString cred = (decoded, none) → colon ∉ decoded →
        parseSSURL (ssScheme ++ ascii "YTpi@x@y/?q") = .error .missingColon) ∧
      (∀ method password, base64.DecodeString cred = (method ++ colon :: password, none) →
        colon ∉ method →
        parseSSURL (ssScheme ++ ascii "YTpi@x@y/?q") = .ok ⟨method, password, server⟩) :=
  parseSSURL_splits_at_first_at (ascii "YTpi@x@y/?q") (ascii "YTpi@x@y")
    (Or.inr ⟨ascii "q", by decide, querySep_first (ascii "YTpi@x@y") (ascii "q") (by decide)⟩)
    (by decide)

/-- C6, the claim fails: `"ss://Og==@h"` carries the credentials `":"`, and
`parseSSURL` succeeds on it with an empty method and an empty password. -/
theorem parseSSURL_empty_credentials_counterexample :
    parseSSURL (ascii "ss://Og==@h") = .ok ⟨[], [], ascii "h"⟩ := by
  decide

/-- C6 as amended: for every input on which `parseSSURL` returns no error, the
returned method holds no `:` and the decoded credentials are exactly
`method ++ ":" ++ password`; the method and the password may be empty. -/
theorem parseSSURL_ok_credentials (s : List Byte) (d : Descriptor)
    (h : parseSSURL s = .ok d) :
    colon ∉ d.method ∧
      ∃ rest body cred, s = ssScheme ++ rest ∧ IsBeforeFirst querySep rest body ∧
        body = cred ++ atSign :: d.serverAddr ∧ atSign ∉ cred ∧
        base64.DecodeString cred = (d.method ++ colon :: d.password, none) := by
  rcases parseSSURL_outcome s with ⟨_, hr⟩ | ⟨_, hr⟩ | ⟨_, offset, hr⟩ | ⟨_, hr⟩ |
    ⟨rest, body, cred, method, password, server, hs, hbody, hsplit, hcred, hd, hm, hr⟩
  · rw [hr] at h; cases h
  · rw [hr] at h; cases h
  · rw [hr] at h; cases h
  · rw [hr] at h; cases h
  · rw [hr] at h
    cases h
    exact ⟨hm, rest, body, cred, hs, hbody, hsplit, hcred, hd⟩

theorem parseSSURL_ok_credentials_witness :
    colon ∉ ([] : List Byte) ∧
      ∃ rest body cred, ascii "ss://Og==@h" = ssScheme ++ rest ∧
        IsBeforeFirst querySep rest body ∧
        body = cred ++ atSign :: ascii "h" ∧ atSign ∉ cred ∧
        base64.DecodeString cred = ([] ++ colon :: [], none) :=
  parseSSURL_ok_credentials (ascii "ss://Og==@h") ⟨[], [], ascii "h"⟩ (by decide)

/-! ## The encoding without its padding -/

namespace base64

theorem trimPadding_cons (x : Byte) (l : List Byte) (h : x ≠ padChar) :
    trimPadding (x :: l) = x :: trimPadding l := by
  unfold trimPadding
  induction l using List.reverseRecOn with
  | nil =>
    rw [List.rdropWhile_singleton]
    simp [h]
  | append_singleton l y ih =>
    rw [← List.cons_append, List.rdropWhile_concat, List.rdropWhile_concat, ih]
    split <;> simp

theorem trimPadding_three (a b c : Byte) (rest : List Byte) :
    trimPadding (EncodeToString (a :: b :: c :: rest)) =
      encodeChar ((a.val * 65536 + b.val * 256 + c.val) / 262144) ::
      encodeChar ((a.val * 65536 + b.val * 256 + c.val) / 4096) ::
      encodeChar ((a.val * 65536 + b.val * 256 + c.val) / 64) ::
      encodeChar (a.val * 65536 + b.val * 256 + c.val) ::
      trimPadding (EncodeToString rest) := by
  simp only [EncodeToString]
  rw [trimPadding_cons _ _ (encodeChar_plain _).2.2.2,
    trimPadding_cons _ _ (encodeChar_plain _).2.2.2,
    trimPadding_cons _ _ (encodeChar_plain _).2.2.2,
    trimPadding_cons _ _ (encodeChar_plain _).2.2.2]

theorem trimPadding_two (a b : Byte) :
    trimPadding (EncodeToString [a, b]) =
      [encodeChar ((a.val * 65536 + b.val * 256) / 262144),
       encodeChar ((a.val * 65536 + b.val * 256) / 4096),
       encodeChar ((a.val * 65536 + b.val * 256) / 64)] := by
  simp only [EncodeToString]
  rw [trimPadding_cons _ _ (encodeChar_plain _).2.2.2,
    trimPadding_cons _ _ (encodeChar_plain _).2.2.2,
    trimPadding_cons _ _ (encodeChar_plain _).2.2.2]
  simp [trimPadding, List.rdropWhile_singleton]

theorem trimPadding_one (a : Byte) :
    trimPadding (EncodeToString [a]) =
      [encodeChar ((a.val * 65536) / 262144), encodeChar ((a.val * 65536) / 4096)] := by
  simp only [EncodeToString]
  rw [trimPadding_cons _ _ (encodeChar_plain _).2.2.2,
    trimPadding_cons _ _ (encodeChar_plain _).2.2.2]
  have : [padChar, padChar] = [padChar] ++ [padChar] := rfl
  rw [trimPadding, this, List.rdropWhile_concat_pos _ _ _ (by simp)]
  simp [List.rdropWhile_singleton]

/-- The encoding of a text whose length is a multiple of 3 has no padding. -/
theorem trimPadding_of_full (bs : List Byte) :
    bs.length % 3 = 0 → trimPadding (EncodeToString bs) = EncodeToString bs := by
  induction bs using EncodeToString.induct with
  | case1 a b c rest ih =>
    intro h
    rw [trimPadding_three, ih (by simp only [List.length_cons] at h; omega)]
    simp [EncodeToString]
  | case2 a b => intro h; simp at h
  | case3 a => intro h; simp at h
  | case4 => intro _; simp [EncodeToString, trimPadding]

/-- On the encoding of a text whose length is not a multiple of 3, once the
padding is removed, the decoder stops with an error at the start of the last,
short group, all full groups decoded. -/
theorem decodeLoop_trimPadding (bs : List Byte) : ∀ (fuel si : Nat) (out : List Byte),
    (trimPadding (EncodeToString bs)).length ≤ fuel → bs.length % 3 ≠ 0 →
      decodeLoop fuel (trimPadding (EncodeToString bs)) si out =
        (out ++ bs.take (bs.length / 3 * 3), some (si + bs.length / 3 * 4)) := by
  induction bs using EncodeToString.induct with
  | case1 a b c rest ih =>
    intro fuel si out hf h
    rw [trimPadding_three] at hf ⊢
    simp only [List.length_cons] at hf h
    obtain ⟨fuel, rfl⟩ : ∃ k, fuel = k + 1 := ⟨fuel - 1, by omega⟩
    rw [decodeLoop_three, ih _ _ _ (by omega) (by omega)]
    have e : (rest.length + 1 + 1 + 1) / 3 = rest.length / 3 + 1 := by omega
    simp only [List.length_cons, e, Nat.add_mul, Nat.one_mul, List.take_succ_cons,
      List.append_assoc, List.cons_append, List.nil_append, Prod.mk.injEq, Option.some.injEq,
      true_and]
    omega
  | case2 a b =>
    intro fuel si out hf _
    rw [trimPadding_two] at hf ⊢
    simp only [List.length_cons, List.length_nil] at hf
    obtain ⟨fuel, rfl⟩ : ∃ k, fuel = k + 1 := ⟨fuel - 1, by omega⟩
    simp only [decodeLoop, decodeQuantum]
    rw [quantumLoop_encodeChar _ _ _ _ (by simp), quantumLoop_encodeChar _ _ _ _ (by simp),
      quantumLoop_encodeChar _ _ _ _ (by simp)]
    simp [quantumLoop]
  | case3 a =>
    intro fuel si out hf _
    rw [trimPadding_one] at hf ⊢
    simp only [List.length_cons, List.length_nil] at hf
    obtain ⟨fuel, rfl⟩ : ∃ k, fuel = k + 1 := ⟨fuel - 1, by omega⟩
    simp only [decodeLoop, decodeQuantum]
    rw [quantumLoop_encodeChar _ _ _ _ (by simp), quantumLoop_encodeChar _ _ _ _ (by simp)]
    simp [quantumLoop]
  | case4 => intro _ _ _ _ h; simp at h

theorem DecodeString_trimPadding (bs : List Byte) (h : bs.length % 3 ≠ 0) :
    DecodeString (trimPadding (EncodeToString bs)) =
      (bs.take (bs.length / 3 * 3), some (bs.length / 3 * 4)) := by
  unfold DecodeString
  rw [decodeLoop_trimPadding _ _ _ _ (Nat.le_refl _) h]
  simp

end base64

theorem trimPadding_plain (bs : List Byte) :
    ∀ x ∈ base64.trimPadding (base64.EncodeToString bs), x ≠ atSign ∧ x ≠ 47 := by
  intro x hx
  have hpre : base64.trimPadding (base64.EncodeToString bs) <+: base64.EncodeToString bs :=
    List.rdropWhile_prefix _ _
  exact EncodeToString_plain bs x (hpre.subset hx)

/-- C4, the claim fails: the credentials `"a:bc"` encode to `"YTpiYw=="`; with
the padding the descriptor parses, without it (`"ss://YTpiYw@h"`, encoded
length 6) `parseSSURL` returns the error of the base64 decoder. -/
theorem parseSSURL_unpadded_counterexample :
    colon ∉ ascii "a" ∧
      ssScheme ++ base64.trimPadding (base64.EncodeToString (ascii "a" ++ colon :: ascii "bc")) ++
        [atSign] ++ ascii "h" = ascii "ss://YTpiYw@h" ∧
      parseSSURL (ssScheme ++ base64.EncodeToString (ascii "a" ++ colon :: ascii "bc") ++
        [atSign] ++ ascii "h") = .ok ⟨ascii "a", ascii "bc", ascii "h"⟩ ∧
      parseSSURL (ssScheme ++
        base64.trimPadding (base64.EncodeToString (ascii "a" ++ colon :: ascii "bc")) ++
        [atSign] ++ ascii "h") = .error (.base64 4) := by
  decide

/-- C4 as amended: `parseSSURL` requires the base64 padding.  For every cipher
name without `:`, every secret and every server text without `"/?"`, the
descriptor built from the URL-safe base64 encoding of
`cipherName ++ ":" ++ secret` with the trailing `=` removed is parsed to the
same method, password and server address as the padded one exactly when the
length of `cipherName ++ ":" ++ secret` is a multiple of 3, so that the encoding
had no padding; otherwise `parseSSURL` returns the error of the base64 decoder,
at the offset where the last, short group starts. -/
theorem parseSSURL_unpadded (cipherName secret server : List Byte)
    (hcolon : colon ∉ cipherName) (hquery : ¬ querySep <:+: server) :
    ((cipherName ++ colon :: secret).length % 3 = 0 →
      parseSSURL (ssScheme ++
        base64.trimPadding (base64.EncodeToString (cipherName ++ colon :: secret)) ++
        [atSign] ++ server) = .ok ⟨cipherName, secret, server⟩) ∧
    ((cipherName ++ colon :: secret).length % 3 ≠ 0 →
      parseSSURL (ssScheme ++
        base64.trimPadding (base64.EncodeToString (cipherName ++ colon :: secret)) ++
        [atSign] ++ server) =
        .error (.base64 ((cipherName ++ colon :: secret).length / 3 * 4))) := by
  constructor
  · intro h
    rw [base64.trimPadding_of_full _ h]
    exact parseSSURL_serialized cipherName secret server hcolon hquery
  · intro h
    have hplain := trimPadding_plain (cipherName ++ colon :: secret)
    have hbody := Split_head_of_no_querySep _
      (no_querySep_append _ server (fun x hx => (hplain x hx).2) hquery)
    have hat : atSign ∉ base64.trimPadding (base64.EncodeToString (cipherName ++ colon :: secret)) :=
      fun hh => (hplain _ hh).1 rfl
    have := parseSSURL_of_body _ _ _ hbody hat
    simp only [List.append_assoc, List.singleton_append] at this ⊢
    rw [this, base64.DecodeString_trimPadding _ h]

theorem parseSSURL_unpadded_witness :
    parseSSURL (ssScheme ++
        base64.trimPadding (base64.EncodeToString (ascii "a" ++ colon :: ascii "b")) ++
        [atSign] ++ ascii "h") = .ok ⟨ascii "a", ascii "b", ascii "h"⟩ ∧
      parseSSURL (ssScheme ++
        base64.trimPadding (base64.EncodeToString (ascii "a" ++ colon :: ascii "bc")) ++
        [atSign] ++ ascii "h") = .error (.base64 4) :=
  ⟨(parseSSURL_unpadded (ascii "a") (ascii "b") (ascii "h") (by decide) (by decide)).1
      (by decide),
    (parseSSURL_unpadded (ascii "a") (ascii "bc") (ascii "h") (by decide) (by decide)).2
      (by decide)⟩

/-! ## Facts about the copy loops -/

namespace io

theorem writeChunk_err_iff (dst : Nat → List Byte → WriteResult) (k : Nat) (data : List Byte) :
    (writeChunk dst k data).2 ≠ none ↔ endsCopy true data (dst k data) = true := by
  unfold writeChunk endsCopy
  by_cases hlt : data.length < (dst k data).nw
  · have hne : (dst k data).nw ≠ data.length := by omega
    cases hew : (dst k data).ew <;> simp [hlt, hew, hne]
  · cases hew : (dst k data).ew with
    | some m => simp [hlt, hew]
    | none =>
      by_cases hne : data.length = (dst k data).nw
      · simp [hlt, hew, hne]
      · have hne2 : ¬ (dst k data).nw = data.length := fun h => hne h.symm
        simp [hlt, hew, hne, hne2]

theorem copyLoop_trace_ne_nil (chunk : Nat → List Byte → Nat × Option CopyErr)
    (dst : Nat → List Byte → WriteResult) (reads : List (List Byte))
    (last : List Byte × ReadErr) (k written : Nat) :
    ∃ data er tr, (copyLoop chunk dst reads last k written).trace = .read data er :: tr := by
  cases reads with
  | nil =>
    obtain ⟨data, er⟩ := last
    simp only [copyLoop]
    split
    · split <;> exact ⟨_, _, _, rfl⟩
    · exact ⟨_, _, _, rfl⟩
  | cons data reads =>
    simp only [copyLoop]
    split
    · split <;> exact ⟨_, _, _, rfl⟩
    · exact ⟨_, _, _, rfl⟩

theorem paired_read_nil (er : Option ReadErr) (tr : List Event) :
    paired (.read [] er :: tr) = paired tr := by
  match tr with
  | [] => rw [paired.eq_4 _ _ _ (by simp)]; simp
  | .read d e :: t => rw [paired.eq_4 _ _ _ (by simp)]; simp
  | .write p res :: t => rw [paired.eq_3]; simp

theorem paired_read_write (data : List Byte) (hd : data ≠ []) (er : Option ReadErr)
    (res : WriteResult) (tr : List Event) :
    paired (.read data er :: .write data res :: tr) = paired tr := by
  rw [paired.eq_3]; simp [hd]

theorem copyLoop_paired (chunk : Nat → List Byte → Nat × Option CopyErr)
    (dst : Nat → List Byte → WriteResult) (reads : List (List Byte))
    (last : List Byte × ReadErr) : ∀ k written,
    paired (copyLoop chunk dst reads last k written).trace = true := by
  induction reads with
  | nil =>
    intro k written
    obtain ⟨data, er⟩ := last
    simp only [copyLoop]
    split
    · rename_i h
      have hd : data ≠ [] := fun h0 => by simp [h0] at h
      split <;> simp [paired, hd]
    · rename_i h
      have hd : data = [] := List.length_eq_zero.1 (by omega)
      subst hd
      simp [paired_read_nil, paired]
  | cons data reads ih =>
    intro k written
    simp only [copyLoop]
    split
    · rename_i h
      have hd : data ≠ [] := fun h0 => by simp [h0] at h
      split
      · simp [paired, hd]
      · rw [paired_read_write _ hd]; exact ih _ _
    · rename_i h
      have hd : data = [] := List.length_eq_zero.1 (by omega)
      subst hd
      simp [paired_read_nil, ih]

theorem bytesWritten_of_paired (tr : List Event) (h : paired tr = true) :
    bytesWritten tr = bytesRead tr := by
  induction tr using paired.induct with
  | case1 => rfl
  | case2 p res tr => simp [paired] at h
  | case3 er tr ih =>
    rw [paired_read_nil] at h
    simp [bytesWritten, bytesRead, ih h]
  | case4 data er hd p res tr2 ih =>
    rw [paired.eq_3] at h
    simp only [hd, if_false, Bool.and_eq_true, decide_eq_true_eq] at h
    simp [bytesWritten, bytesRead, h.1, ih h.2]
  | case5 data er tr hd hno =>
    rw [paired.eq_4 _ _ _ hno] at h
    simp [hd] at h

theorem copyLoop_readEvents (chunk : Nat → List Byte → Nat × Option CopyErr)
    (dst : Nat → List Byte → WriteResult) (reads : List (List Byte))
    (last : List Byte × ReadErr) : ∀ k written,
    readEvents (copyLoop chunk dst reads last k written).trace <+: script reads last := by
  induction reads with
  | nil =>
    intro k written
    obtain ⟨data, er⟩ := last
    simp only [copyLoop]
    split
    · split <;> simp [readEvents, script]
    · simp [readEvents, script]
  | cons data reads ih =>
    intro k written
    simp only [copyLoop]
    split
    · split
      · simp only [readEvents, script, List.map_cons, List.cons_append]
        exact ⟨_, rfl⟩
      · simp only [readEvents, script, List.map_cons, List.cons_append]
        exact (List.prefix_cons_inj _).2 (ih _ _)
    · simp only [readEvents, script, List.map_cons, List.cons_append]
      exact (List.prefix_cons_inj _).2 (ih _ _)

theorem endedByWrite_cons_cons (generic : Bool) (a b : Event) (tr : List Event)
    (h : tr ≠ []) : endedByWrite generic (a :: b :: tr) = endedByWrite generic tr := by
  obtain ⟨e, t, rfl⟩ := List.exists_cons_of_ne_nil h
  simp [endedByWrite, List.getLast?_cons_cons]

theorem endedByWrite_cons (generic : Bool) (a : Event) (tr : List Event)
    (h : tr ≠ []) : endedByWrite generic (a :: tr) = endedByWrite generic tr := by
  obtain ⟨e, t, rfl⟩ := List.exists_cons_of_ne_nil h
  simp [endedByWrite, List.getLast?_cons_cons]

/-- The copy goes on until the source is read to its end or a write ends it. -/
theorem copyLoop_end (generic : Bool) (chunk : Nat → List Byte → Nat × Option CopyErr)
    (dst : Nat → List Byte → WriteResult)
    (hchunk : ∀ k data, (chunk k data).2 ≠ none ↔ endsCopy generic data (dst k data) = true)
    (reads : List (List Byte)) (last : List Byte × ReadErr) : ∀ k written,
    readEvents (copyLoop chunk dst reads last k written).trace = script reads last ∨
      endedByWrite generic (copyLoop chunk dst reads last k written).trace = true := by
  induction reads with
  | nil =>
    intro k written
    obtain ⟨data, er⟩ := last
    left
    simp only [copyLoop]
    split
    · split <;> simp [readEvents, script]
    · simp [readEvents, script]
  | cons data reads ih =>
    intro k written
    simp only [copyLoop]
    split
    · split
      · rename_i e he
        right
        have := (hchunk k data).1 (by rw [he]; simp)
        simp [endedByWrite, this]
      · obtain ⟨d, er, tr, htr⟩ := copyLoop_trace_ne_nil chunk dst reads last (k + 1)
          (written + (chunk k data).1)
        rcases ih (k + 1) (written + (chunk k data).1) with h | h
        · left
          simp [readEvents, script, h]
        · right
          rw [endedByWrite_cons_cons _ _ _ _ (by rw [htr]; simp)]
          exact h
    · obtain ⟨d, er, tr, htr⟩ := copyLoop_trace_ne_nil chunk dst reads last k written
      rcases ih k written with h | h
      · left
        simp [readEvents, script, h]
      · right
        rw [endedByWrite_cons _ _ _ (by rw [htr]; simp)]
        exact h

theorem noEarlyEnd_read_cons (generic : Bool) (data : List Byte) (er : Option ReadErr)
    (tr : List Event) (h : noEarlyEnd generic tr = true) :
    noEarlyEnd generic (.read data er :: tr) = true := by
  cases tr with
  | nil => simp [noEarlyEnd]
  | cons e t => simpa [noEarlyEnd] using h

/-- No write but the last call of the copy ends it. -/
theorem copyLoop_noEarlyEnd (generic : Bool) (chunk : Nat → List Byte → Nat × Option CopyErr)
    (dst : Nat → List Byte → WriteResult)
    (hchunk : ∀ k data, (chunk k data).2 ≠ none ↔ endsCopy generic data (dst k data) = true)
    (reads : List (List Byte)) (last : List Byte × ReadErr) : ∀ k written,
    noEarlyEnd generic (copyLoop chunk dst reads last k written).trace = true := by
  induction reads with
  | nil =>
    intro k written
    obtain ⟨data, er⟩ := last
    simp only [copyLoop]
    split
    · split <;> simp [noEarlyEnd]
    · simp [noEarlyEnd]
  | cons data reads ih =>
    intro k written
    simp only [copyLoop]
    split
    · split
      · simp [noEarlyEnd]
      · rename_i he
        obtain ⟨d, er, tr, htr⟩ := copyLoop_trace_ne_nil chunk dst reads last (k + 1)
          (written + (chunk k data).1)
        have hno : endsCopy generic data (dst k data) = false := by
          cases hh : endsCopy generic data (dst k data) with
          | false => rfl
          | true => exact absurd he ((hchunk k data).2 hh)
        have := ih (k + 1) (written + (chunk k data).1)
        rw [htr] at this ⊢
        simp [noEarlyEnd, hno, this]
    · exact noEarlyEnd_read_cons _ _ _ _ (ih _ _)

/-- The writes of the copy carry what the destination returns on them. -/
theorem copyLoop_resultsOf (chunk : Nat → List Byte → Nat × Option CopyErr)
    (dst : Nat → List Byte → WriteResult) (reads : List (List Byte))
    (last : List Byte × ReadErr) : ∀ k written,
    resultsOf dst k (copyLoop chunk dst reads last k written).trace = true := by
  induction reads with
  | nil =>
    intro k written
    obtain ⟨data, er⟩ := last
    simp only [copyLoop]
    split
    · split <;> simp [resultsOf]
    · simp [resultsOf]
  | cons data reads ih =>
    intro k written
    simp only [copyLoop]
    split
    · split
      · simp [resultsOf]
      · simp [resultsOf, ih]
    · simp [resultsOf, ih]

theorem writeToChunk_err_iff (dst : Nat → List Byte → WriteResult) (k : Nat)
    (data : List Byte) :
    (cipher.writeToChunk dst k data).2 ≠ none ↔ endsCopy false data (dst k data) = true := by
  cases hew : (dst k data).ew <;> simp [cipher.writeToChunk, endsCopy, hew]

theorem readFromChunk_err_iff (dst : Nat → List Byte → WriteResult) (k : Nat)
    (data : List Byte) :
    (cipher.readFromChunk dst k data).2 ≠ none ↔ endsCopy false data (dst k data) = true := by
  cases hew : (dst k data).ew <;> simp [cipher.readFromChunk, endsCopy, hew]

end io

/-! ## transfer closes both ends -/

theorem Copy_trace_facts (srcWriterTo dstReaderFrom : Bool)
    (dst : Nat → List Byte → io.WriteResult) (reads : List (List Byte))
    (last : List Byte × io.ReadErr) :
    io.paired (io.Copy srcWriterTo dstReaderFrom dst reads last).trace = true ∧
      io.readEvents (io.Copy srcWriterTo dstReaderFrom dst reads last).trace <+:
        io.script reads last ∧
      (io.readEvents (io.Copy srcWriterTo dstReaderFrom dst reads last).trace =
          io.script reads last ∨
        io.endedByWrite (!srcWriterTo && !dstReaderFrom)
          (io.Copy srcWriterTo dstReaderFrom dst reads last).trace = true) ∧
      io.noEarlyEnd (!srcWriterTo && !dstReaderFrom)
        (io.Copy srcWriterTo dstReaderFrom dst reads last).trace = true ∧
      io.resultsOf dst 0 (io.Copy srcWriterTo dstReaderFrom dst reads last).trace = true := by
  cases srcWriterTo with
  | true =>
    simp only [io.Copy, if_true, cipher.WriteTo, Bool.not_true, Bool.false_and]
    exact ⟨io.copyLoop_paired _ _ _ _ _ _, io.copyLoop_readEvents _ _ _ _ _ _,
      io.copyLoop_end false _ _ (io.writeToChunk_err_iff dst) _ _ _ _,
      io.copyLoop_noEarlyEnd false _ _ (io.writeToChunk_err_iff dst) _ _ _ _,
      io.copyLoop_resultsOf _ _ _ _ _ _⟩
  | false =>
    cases dstReaderFrom with
    | true =>
      simp only [io.Copy, if_true, cipher.ReadFrom, Bool.not_true, Bool.and_false,
        Bool.false_eq_true, if_false]
      exact ⟨io.copyLoop_paired _ _ _ _ _ _, io.copyLoop_readEvents _ _ _ _ _ _,
        io.copyLoop_end false _ _ (io.readFromChunk_err_iff dst) _ _ _ _,
        io.copyLoop_noEarlyEnd false _ _ (io.readFromChunk_err_iff dst) _ _ _ _,
        io.copyLoop_resultsOf _ _ _ _ _ _⟩
    | false =>
      simp only [io.Copy, io.copyBuffer, Bool.false_eq_true, if_false, Bool.not_false,
        Bool.and_self]
      exact ⟨io.copyLoop_paired _ _ _ _ _ _, io.copyLoop_readEvents _ _ _ _ _ _,
        io.copyLoop_end true _ _ (io.writeChunk_err_iff dst) _ _ _ _,
        io.copyLoop_noEarlyEnd true _ _ (io.writeChunk_err_iff dst) _ _ _ _,
        io.copyLoop_resultsOf _ _ _ _ _ _⟩

/-- The ways a copy ends, on small inputs.  In the loop of `copyBuffer`: the
source at its end; a read that fails; a write that fails after taking one byte
of two.  In the `WriteTo` of the cipher connection: a write that takes one byte
of two and returns no error does not end the copy. -/
theorem transfer_examples :
    transfer false false (fun _ p => ⟨p.length, none⟩) [[1, 2], [3]] ([], .EOF) =
        [.copy (.read [1, 2] none), .copy (.write [1, 2] ⟨2, none⟩),
          .copy (.read [3] none), .copy (.write [3] ⟨1, none⟩),
          .copy (.read [] (some .EOF)), .closeSource, .closeDestination] ∧
      transfer false false (fun _ p => ⟨p.length, none⟩) [[1, 2]] ([3], .other "reset") =
        [.copy (.read [1, 2] none), .copy (.write [1, 2] ⟨2, none⟩),
          .copy (.read [3] (some (.other "reset"))), .copy (.write [3] ⟨1, none⟩),
          .closeSource, .closeDestination] ∧
      transfer false false (fun _ _ => ⟨1, some "broken pipe"⟩) [[1, 2], [3]] ([], .EOF) =
        [.copy (.read [1, 2] none), .copy (.write [1, 2] ⟨1, some "broken pipe"⟩),
          .closeSource, .closeDestination] ∧
      transfer false false (fun _ _ => ⟨1, none⟩) [[1, 2], [3]] ([], .EOF) =
        [.copy (.read [1, 2] none), .copy (.write [1, 2] ⟨1, none⟩),
          .closeSource, .closeDestination] ∧
      transfer true false (fun _ _ => ⟨1, none⟩) [[1, 2], [3]] ([], .EOF) =
        [.copy (.read [1, 2] none), .copy (.write [1, 2] ⟨1, none⟩),
          .copy (.read [3] none), .copy (.write [3] ⟨1, none⟩),
          .copy (.read [] (some .EOF)), .closeSource, .closeDestination] := by
  decide

/-- C9: once the TCP connection to the relay is open, the dial function that
`newShadowsocksDialer` returns (a) closes it, with nothing written, and returns
an error and no connection when the address encoder rejects `addr`; (b) closes
it and returns an error and no connection when writing the encoded address
fails; (c) otherwise has written the encoded address and nothing else, leaves
it open and returns it with no error.  A connection is returned exactly when it
is left open, and an error exactly when it is closed. -/
theorem dial_failure_cleanup (dial : DialEnv → List Byte → DialResult)
    (hdial : newShadowsocksDialer none = .ok dial) (env : DialEnv) (addr : List Byte)
    (hopen : env.netDial = none) :
    ∃ conn, (dial env addr).relay = some conn ∧
      (env.ParseAddr addr = none →
        conn.closed = true ∧ conn.written = [] ∧
          (dial env addr).err = some (.parseAddr addr) ∧ (dial env addr).returned = false) ∧
      (∀ targetAddr msg, env.ParseAddr addr = some targetAddr →
        env.connWrite targetAddr = some msg →
        conn.closed = true ∧ conn.written = [targetAddr] ∧
          (dial env addr).err = some (.sendAddr msg) ∧ (dial env addr).returned = false) ∧
      (∀ targetAddr, env.ParseAddr addr = some targetAddr →
        env.connWrite targetAddr = none →
        conn.closed = false ∧ conn.written = [targetAddr] ∧
          (dial env addr).err = none ∧ (dial env addr).returned = true) ∧
      ((dial env addr).returned = true ↔ conn.closed = false) ∧
      ((dial env addr).err ≠ none ↔ conn.closed = true) := by
  simp only [newShadowsocksDialer, Except.ok.injEq] at hdial
  subst hdial
  cases hp : env.ParseAddr addr with
  | none =>
    refine ⟨⟨[], true⟩, ?_⟩
    simp [shadowsocksDialer, hopen, hp]
  | some targetAddr =>
    cases hw : env.connWrite targetAddr with
    | none =>
      refine ⟨⟨[targetAddr], false⟩, ?_⟩
      simp only [shadowsocksDialer, hopen, hp, hw]
      refine ⟨by simp, by simp, ?_, ?_, by simp, by simp⟩
      · intro t m ht hm
        cases ht
        rw [hw] at hm
        cases hm
      · intro t ht _
        cases ht
        simp
    | some msg =>
      refine ⟨⟨[targetAddr], true⟩, ?_⟩
      simp only [shadowsocksDialer, hopen, hp, hw]
      refine ⟨by simp, by simp, ?_, ?_, by simp, by simp⟩
      · intro t m ht hm
        cases ht
        rw [hw] at hm
        cases hm
        simp
      · intro t ht hm
        cases ht
        rw [hw] at hm
        cases hm

theorem dial_failure_cleanup_witness :
    ∃ conn, (shadowsocksDialer ⟨none, fun _ => some [3, 1, 120, 0, 80], fun _ => some "reset"⟩
        [120, 58, 56, 48]).relay = some conn ∧ conn.closed = true ∧
      conn.written = [[3, 1, 120, 0, 80]] :=
  let ⟨conn, h, _, hb, _⟩ := dial_failure_cleanup shadowsocksDialer rfl
    ⟨none, fun _ => some [3, 1, 120, 0, 80], fun _ => some "reset"⟩ [120, 58, 56, 48] rfl
  ⟨conn, h, (hb [3, 1, 120, 0, 80] "reset" rfl rfl).1, (hb [3, 1, 120, 0, 80] "reset" rfl rfl).2.1⟩

/-- C7: for every CONNECT request whose connection is hijacked, whenever the
dialer is called the bytes `"HTTP/1.1 200 Connection Established\r\n\r\n"`
(`connectionEstablished`, the 39 bytes listed) have been written to the client
before, by a write that did not fail; the dialer is
not called when that write fails; and when the dialer returns an error, nothing
follows its call but `clientConn.Close()`: no byte is written to the client
after it and no relay task is started. -/
theorem handleConnect_tunnel_order (env : ConnectEnv) (host : List Byte)
    (dialer : String → List Byte → Option String)
    (hh : env.hijacker = true) (he : env.hijackErr = none) :
    connectionEstablished =
      [72, 84, 84, 80, 47, 49, 46, 49, 32, 50, 48, 48, 32, 67, 111, 110, 110, 101,
        99, 116, 105, 111, 110, 32, 69, 115, 116, 97, 98, 108, 105, 115, 104, 101, 100,
        13, 10, 13, 10] ∧
    (∀ pre post network addr,
        handleConnect env host dialer = pre ++ .dial network addr :: post →
        env.clientWriteErr = none ∧ pre = [.hijack, .clientWrite connectionEstablished] ∧
          network = "tcp" ∧ addr = host) ∧
      (env.clientWriteErr ≠ none →
        (∀ network addr, ConnectEvent.dial network addr ∉ handleConnect env host dialer) ∧
          handleConnect env host dialer =
            [.hijack, .clientWrite connectionEstablished, .clientClose]) ∧
      (env.clientWriteErr = none → dialer "tcp" host ≠ none →
        handleConnect env host dialer =
            [.hijack, .clientWrite connectionEstablished] ++ [.dial "tcp" host, .clientClose] ∧
          ∀ destination source,
            ConnectEvent.goTransfer destination source ∉ handleConnect env host dialer) ∧
      (env.clientWriteErr = none → dialer "tcp" host = none →
        handleConnect env host dialer =
          [.hijack, .clientWrite connectionEstablished, .dial "tcp" host,
            .goTransfer .clientConn .targetConn, .goTransfer .targetConn .clientConn]) := by
  have key : ∀ (l : List ConnectEvent) (pre post : List ConnectEvent) (network : String)
      (addr : List Byte), l = [.hijack, .clientWrite connectionEstablished, .dial "tcp" host] →
      ∀ tail, (∀ n a, ConnectEvent.dial n a ∉ tail) →
      l ++ tail = pre ++ .dial network addr :: post →
      pre = [.hijack, .clientWrite connectionEstablished] ∧ network = "tcp" ∧ addr = host := by
    intro l pre post network addr hl tail htail h
    subst hl
    match pre, h with
    | [], h => simp at h
    | [_], h => simp at h
    | [a, b], h =>
      simp only [List.cons_append, List.nil_append, List.cons.injEq, ConnectEvent.dial.injEq] at h
      obtain ⟨rfl, rfl, ⟨rfl, rfl⟩, _⟩ := h
      exact ⟨rfl, rfl, rfl⟩
    | a :: b :: c :: pre, h =>
      exfalso
      simp only [List.cons_append, List.nil_append, List.cons.injEq] at h
      obtain ⟨_, _, _, h⟩ := h
      exact htail network addr (by rw [h]; simp)
  refine ⟨by decide, ?_⟩
  cases hw : env.clientWriteErr with
  | some msg =>
    have htr : handleConnect env host dialer =
        [.hijack, .clientWrite connectionEstablished, .clientClose] := by
      simp [handleConnect, hh, he, hw]
    rw [htr]
    refine ⟨?_, by simp, by simp, by simp⟩
    intro pre post network addr h
    exfalso
    have : ConnectEvent.dial network addr ∈
        [ConnectEvent.hijack, .clientWrite connectionEstablished, .clientClose] := by
      rw [h]; simp
    simp at this
  | none =>
    cases hd : dialer "tcp" host with
    | some msg =>
      have htr : handleConnect env host dialer =
          [.hijack, .clientWrite connectionEstablished, .dial "tcp" host, .clientClose] := by
        simp [handleConnect, hh, he, hw, hd]
      rw [htr]
      refine ⟨?_, by simp, by simp, by simp⟩
      intro pre post network addr h
      exact ⟨rfl, key _ pre post network addr rfl [.clientClose] (by simp) h⟩
    | none =>
      have htr : handleConnect env host dialer =
          [.hijack, .clientWrite connectionEstablished, .dial "tcp" host,
            .goTransfer .clientConn .targetConn, .goTransfer .targetConn .clientConn] := by
        simp [handleConnect, hh, he, hw, hd]
      rw [htr]
      refine ⟨?_, by simp, by simp, by simp⟩
      intro pre post network addr h
      exact ⟨rfl, key _ pre post network addr rfl
        [.goTransfer .clientConn .targetConn, .goTransfer .targetConn .clientConn] (by simp) h⟩

theorem handleConnect_tunnel_order_witness :
    handleConnect ⟨true, none, none⟩ (ascii "example.com:443") (fun _ _ => some "refused") =
      [.hijack,
        .clientWrite [72, 84, 84, 80, 47, 49, 46, 49, 32, 50, 48, 48, 32, 67, 111, 110, 110, 101,
        99, 116, 105, 111, 110, 32, 69, 115, 116, 97, 98, 108, 105, 115, 104, 101, 100,
        13, 10, 13, 10],
        .dial "tcp" (ascii "example.com:443"), .clientClose] := by
  have h := (handleConnect_tunnel_order ⟨true, none, none⟩ (ascii "example.com:443")
    (fun _ _ => some "refused") rfl rfl).2.2.2.1 rfl (by simp)
  rw [(handleConnect_tunnel_order ⟨true, none, none⟩ (ascii "example.com:443")
    (fun _ _ => some "refused") rfl rfl).1] at h
  exact h.1

/-! ## Facts about the header map and the copy of the body -/

namespace http

theorem Header.get_assign_self (h : Header) (k : String) (v : List String) :
    (h.assign k v).get k = some v := by
  simp [Header.assign, Header.get, List.lookup]

theorem Header.get_filter_ne (h : Header) (k k2 : String) (hne : k ≠ k2) :
    Header.get (h.filter (fun e => decide (e.1 ≠ k2))) k = Header.get h k := by
  induction h with
  | nil => rfl
  | cons e h ih =>
    obtain ⟨ek, ev⟩ := e
    simp only [Header.get] at ih ⊢
    by_cases hek : ek = k2
    · subst hek
      have : (k == ek) = false := by simpa using hne
      rw [List.filter_cons_of_neg (by simp), ih]
      simp [List.lookup, this]
    · rw [List.filter_cons_of_pos (by simpa using hek)]
      by_cases hk : k = ek
      · subst hk
        simp [List.lookup]
      · have : (k == ek) = false := by simpa using hk
        simp only [List.lookup, this]
        exact ih

theorem Header.get_assign_ne (h : Header) (k k2 : String) (v : List String) (hne : k ≠ k2) :
    (h.assign k2 v).get k = h.get k := by
  have : (k == k2) = false := by simpa using hne
  have h2 := Header.get_filter_ne h k k2 hne
  simp only [Header.get] at h2 ⊢
  simp only [Header.assign, List.lookup, this]
  exact h2

theorem Header.get_foldl_assign_of_not_mem (entries : Header) (k : String)
    (hk : k ∉ entries.map Prod.fst) : ∀ h : Header,
    Header.get (entries.foldl (fun (h : Header) (kv : String × List String) =>
      h.assign kv.1 kv.2) h) k = h.get k := by
  induction entries with
  | nil => intro h; rfl
  | cons e entries ih =>
    intro h
    simp only [List.map_cons, List.mem_cons, not_or] at hk
    rw [List.foldl_cons, ih hk.2, Header.get_assign_ne _ _ _ _ hk.1]

/-- After the loop `for k, v := range resp.Header { w.Header()[k] = v }` every
key of the upstream map has its upstream values. -/
theorem Header.get_foldl_assign (entries : Header) (hnodup : (entries.map Prod.fst).Nodup)
    (k : String) (v : List String) (hmem : (k, v) ∈ entries) : ∀ h : Header,
    Header.get (entries.foldl (fun (h : Header) (kv : String × List String) =>
      h.assign kv.1 kv.2) h) k = some v := by
  induction entries with
  | nil => simp at hmem
  | cons e entries ih =>
    intro h
    simp only [List.map_cons, List.nodup_cons] at hnodup
    rw [List.foldl_cons]
    rcases List.mem_cons.1 hmem with rfl | hmem
    · rw [Header.get_foldl_assign_of_not_mem _ _ hnodup.1, Header.get_assign_self]
    · exact ih hnodup.2 hmem _

end http

namespace io

theorem copyLoop_bytesRead (chunk : Nat → List Byte → Nat × Option CopyErr)
    (dst : Nat → List Byte → WriteResult)
    (reads : List (List Byte)) (last : List Byte × ReadErr) : ∀ k written,
    bytesRead (copyLoop chunk dst reads last k written).trace <+:
      concatReads reads ++ last.1 := by
  induction reads with
  | nil =>
    intro k written
    obtain ⟨data, er⟩ := last
    simp only [copyLoop]
    split
    · split <;> simp [bytesRead, concatReads]
    · simp [bytesRead, concatReads]
  | cons data reads ih =>
    intro k written
    simp only [copyLoop]
    split
    · split
      · simp only [bytesRead, concatReads, List.append_nil, List.append_assoc]
        exact List.prefix_append _ _
      · simp only [bytesRead, concatReads, List.append_assoc]
        exact (List.prefix_append_right_inj data).2 (ih _ _)
    · simp only [bytesRead, concatReads, List.append_assoc]
      exact (List.prefix_append_right_inj data).2 (ih _ _)

theorem writeChunk_of_ok (dst : Nat → List Byte → WriteResult)
    (hdst : ∀ k p, dst k p = ⟨p.length, none⟩) (k : Nat) (data : List Byte) :
    writeChunk dst k data = (data.length, none) := by
  simp [writeChunk, hdst]

/-- When every write takes all it is given, every byte of the source is read. -/
theorem copyBuffer_bytesRead_eq (dst : Nat → List Byte → WriteResult)
    (hdst : ∀ k p, dst k p = ⟨p.length, none⟩)
    (reads : List (List Byte)) (last : List Byte × ReadErr) : ∀ k written,
    bytesRead (copyLoop (writeChunk dst) dst reads last k written).trace =
      concatReads reads ++ last.1 := by
  induction reads with
  | nil =>
    intro k written
    obtain ⟨data, er⟩ := last
    simp only [copyLoop, writeChunk_of_ok dst hdst]
    split <;> simp [bytesRead, concatReads]
  | cons data reads ih =>
    intro k written
    simp only [copyLoop, writeChunk_of_ok dst hdst]
    split <;> simp [bytesRead, concatReads, ih]

end io

namespace http

theorem ResponseWriter.writeAll_of_status (tr : List io.Event) : ∀ (w : ResponseWriter)
    (code : Nat), w.status = some code →
    w.writeAll tr = { w with body := w.body ++ io.bytesWritten tr } := by
  induction tr with
  | nil => intro w code _; simp [ResponseWriter.writeAll, io.bytesWritten]
  | cons e tr ih =>
    intro w code h
    cases e with
    | read data er => simpa [ResponseWriter.writeAll, io.bytesWritten] using ih w code h
    | write p res =>
      simp only [ResponseWriter.writeAll, io.bytesWritten]
      have hw : w.Write p = { w with body := w.body ++ p } := by
        simp [ResponseWriter.Write, h]
      rw [hw, ih _ code (by simpa using h)]
      simp

theorem Error_fresh (msg : List Byte) (code : Nat) (h1 : 200 ≤ code) (h2 : code ≤ 999) :
    Error .fresh msg code =
      (⟨[("X-Content-Type-Options", ["nosniff"]),
        ("Content-Type", ["text/plain; charset=utf-8"])], [], some code, msg ++ [10]⟩,
        false) := by
  have e1 : ¬ (code < 100 ∨ code > 999) := by omega
  have e2 : ¬ (100 ≤ code ∧ code ≤ 199 ∧ code ≠ 101) := by omega
  simp only [Error, ResponseWriter.WriteHeader, ResponseWriter.fresh, e1, e2, if_false,
    ResponseWriter.Write]
  rfl

end http

/-- C8, the claim fails.  An upstream response with the status code 99 (the
status line `HTTP/1.1 099`) and the body `"hi"` makes `w.WriteHeader(99)`
panic: the handler ends there, the response has no status, and no byte of the
upstream body is passed on. -/
theorem handleHTTP_status_counterexample :
    (http.Transport.RoundTrip ⟨none, .ok ⟨99, [], [[104, 105]], ([], .EOF)⟩⟩).toOption.map
        (fun resp => (resp.StatusCode, resp.body)) = some (99, [104, 105]) ∧
    (handleHTTP .fresh ⟨none, ⟨none, .ok ⟨99, [], [[104, 105]], ([], .EOF)⟩⟩,
        fun _ p => ⟨p.length, none⟩⟩).panicked = true ∧
    (handleHTTP .fresh ⟨none, ⟨none, .ok ⟨99, [], [[104, 105]], ([], .EOF)⟩⟩,
        fun _ p => ⟨p.length, none⟩⟩).w.status = none ∧
    (handleHTTP .fresh ⟨none, ⟨none, .ok ⟨99, [], [[104, 105]], ([], .EOF)⟩⟩,
        fun _ p => ⟨p.length, none⟩⟩).w.body = [] := by
  decide

/-- C8 as amended: for every request that is not CONNECT, `handleHTTP` on the
fresh response writer (1) answers 500 with the error text when
`http.NewRequest` fails; (2) otherwise answers 503 with the error text, and
nothing from upstream, when the round trip fails, a failed dial to the relay
included; (3) otherwise, when the status code of the upstream response is one
that `WriteHeader` takes as the status of the response (101, or from 200 to
999), sets that status code, gives every key of the upstream header map its
full list of values and no other key a value, and passes to `w.Write` the
bytes read from the upstream body, unchanged and in order: a prefix of the
body in every case, and all of it when no write to the client fails. -/
theorem handleHTTP_outcome (env : HTTPEnv) :
    (∀ msg, env.newRequestErr = some msg →
      handleHTTP .fresh env =
        ⟨⟨[("X-Content-Type-Options", ["nosniff"]),
          ("Content-Type", ["text/plain; charset=utf-8"])], [], some 500, msg ++ [10]⟩,
          false, false⟩) ∧
    (env.newRequestErr = none → ∀ msg, env.transport.RoundTrip = .error msg →
      handleHTTP .fresh env =
        ⟨⟨[("X-Content-Type-Options", ["nosniff"]),
          ("Content-Type", ["text/plain; charset=utf-8"])], [], some 503, msg ++ [10]⟩,
          false, false⟩) ∧
    (∀ msg, env.transport.DialContext = some msg → env.transport.RoundTrip = .error msg) ∧
    (env.newRequestErr = none → ∀ resp, env.transport.RoundTrip = .ok resp →
      (resp.StatusCode = 101 ∨ (200 ≤ resp.StatusCode ∧ resp.StatusCode ≤ 999)) →
      (handleHTTP .fresh env).w.status = some resp.StatusCode ∧
      (handleHTTP .fresh env).w.interim = [] ∧
      (handleHTTP .fresh env).panicked = false ∧
      ((resp.Header.map Prod.fst).Nodup → ∀ k v, (k, v) ∈ resp.Header →
        (handleHTTP .fresh env).w.header.get k = some v) ∧
      (∀ k, k ∉ resp.Header.map Prod.fst → (handleHTTP .fresh env).w.header.get k = none) ∧
      (handleHTTP .fresh env).w.body <+: resp.body ∧
      ((∀ k p, env.clientWrite k p = ⟨p.length, none⟩) →
        (handleHTTP .fresh env).w.body = resp.body) ∧
      (handleHTTP .fresh env).bodyClosed = true) := by
  refine ⟨?_, ?_, ?_, ?_⟩
  · intro msg h
    simp only [handleHTTP, h]
    rw [http.Error_fresh msg 500 (by omega) (by omega)]
  · intro h msg hr
    simp only [handleHTTP, h, hr]
    rw [http.Error_fresh msg 503 (by omega) (by omega)]
  · intro msg h
    simp [http.Transport.RoundTrip, h]
  · intro h resp hr hcode
    have e1 : ¬ (resp.StatusCode < 100 ∨ resp.StatusCode > 999) := by omega
    have e2 : ¬ (100 ≤ resp.StatusCode ∧ resp.StatusCode ≤ 199 ∧ resp.StatusCode ≠ 101) := by
      omega
    have hout : handleHTTP .fresh env =
        ⟨⟨resp.Header.foldl
            (fun (h : http.Header) (kv : String × List String) => h.assign kv.1 kv.2) [],
          [], some resp.StatusCode,
          io.bytesWritten
            (io.Copy false false env.clientWrite resp.bodyReads resp.bodyLast).trace⟩,
          true, false⟩ := by
      simp only [handleHTTP, h, hr, http.ResponseWriter.WriteHeader,
        http.ResponseWriter.fresh, e1, e2, if_false]
      rw [http.ResponseWriter.writeAll_of_status _ _ resp.StatusCode rfl]
      simp
    rw [hout]
    have hbw : io.bytesWritten
        (io.Copy false false env.clientWrite resp.bodyReads resp.bodyLast).trace =
        io.bytesRead
          (io.Copy false false env.clientWrite resp.bodyReads resp.bodyLast).trace :=
      io.bytesWritten_of_paired _ (Copy_trace_facts _ _ _ _ _).1
    refine ⟨rfl, rfl, rfl, ?_, ?_, ?_, ?_, rfl⟩
    · intro hnodup k v hmem
      exact http.Header.get_foldl_assign resp.Header hnodup k v hmem _
    · intro k hk
      exact http.Header.get_foldl_assign_of_not_mem resp.Header k hk _
    · simp only [hbw]
      simp only [io.Copy, io.copyBuffer, Bool.false_eq_true, if_false]
      exact io.copyLoop_bytesRead _ _ _ _ _ _
    · intro hw
      simp only [hbw]
      simp only [io.Copy, io.copyBuffer, Bool.false_eq_true, if_false]
      exact io.copyBuffer_bytesRead_eq _ hw _ _ _ _

theorem handleHTTP_outcome_witness :
    (handleHTTP .fresh ⟨none, ⟨none, .ok ⟨200, [("Content-Type", ["text/html"])], [[104, 105]],
        ([33], .EOF)⟩⟩, fun _ p => ⟨p.length, none⟩⟩).w.status = some 200 ∧
      (handleHTTP .fresh ⟨none, ⟨none, .ok ⟨200, [("Content-Type", ["text/html"])], [[104, 105]],
        ([33], .EOF)⟩⟩, fun _ p => ⟨p.length, none⟩⟩).w.header.get "Content-Type" =
        some ["text/html"] ∧
      (handleHTTP .fresh ⟨none, ⟨none, .ok ⟨200, [("Content-Type", ["text/html"])], [[104, 105]],
        ([33], .EOF)⟩⟩, fun _ p => ⟨p.length, none⟩⟩).w.body = [104, 105, 33] :=
  have h := (handleHTTP_outcome ⟨none, ⟨none, .ok ⟨200, [("Content-Type", ["text/html"])],
    [[104, 105]], ([33], .EOF)⟩⟩, fun _ p => ⟨p.length, none⟩⟩).2.2.2 rfl
    ⟨200, [("Content-Type", ["text/html"])], [[104, 105]], ([33], .EOF)⟩ rfl
    (Or.inr ⟨by decide, by decide⟩)
  ⟨h.1, h.2.2.2.1 (by decide) "Content-Type" ["text/html"] (by simp),
    h.2.2.2.2.2.2.1 (fun _ _ => rfl)⟩

/-- Runs of `handleHTTP` on small inputs.  A status code above 999 makes
`WriteHeader` panic as one below 100 does.  A status code from 100 to 199
other than 101, which the transport of Go does not hand to its caller, would
go out as an informational response, and the first write of the body would
set the status 200.  A failed `http.NewRequest` gives 500 and a failed dial
gives 503, each with the text of the error as one line. -/
theorem handleHTTP_examples :
    (handleHTTP .fresh ⟨none, ⟨none, .ok ⟨1000, [], [[104, 105]], ([], .EOF)⟩⟩,
        fun _ p => ⟨p.length, none⟩⟩ = ⟨⟨[], [], none, []⟩, true, true⟩) ∧
    (handleHTTP .fresh ⟨none, ⟨none, .ok ⟨103, [("Link", ["a"])], [[104, 105]], ([], .EOF)⟩⟩,
        fun _ p => ⟨p.length, none⟩⟩ =
      ⟨⟨[("Link", ["a"])], [(103, [("Link", ["a"])])], some 200, [104, 105]⟩, true, false⟩) ∧
    (handleHTTP .fresh ⟨none, ⟨none, .ok ⟨204, [("A", ["b", "c"])], [], ([], .EOF)⟩⟩,
        fun _ p => ⟨p.length, none⟩⟩ =
      ⟨⟨[("A", ["b", "c"])], [], some 204, []⟩, true, false⟩) ∧
    ((handleHTTP .fresh ⟨some [101], ⟨none, .error [102]⟩, fun _ p => ⟨p.length, none⟩⟩).w.status,
      (handleHTTP .fresh ⟨some [101], ⟨none, .error [102]⟩, fun _ p => ⟨p.length, none⟩⟩).w.body) =
      (some 500, [101, 10]) ∧
    ((handleHTTP .fresh ⟨none, ⟨some [100], .ok ⟨200, [], [], ([], .EOF)⟩⟩,
        fun _ p => ⟨p.length, none⟩⟩).w.status,
      (handleHTTP .fresh ⟨none, ⟨some [100], .ok ⟨200, [], [], ([], .EOF)⟩⟩,
        fun _ p => ⟨p.length, none⟩⟩).w.body) = (some 503, [100, 10]) := by
  decide
